import Mathlib

/-!
Verification of the reddit listing stream engine (`stream.py`).

The Python source is shallowly embedded below: module-level constants become
Lean constants, the mutable `RedditStream` attributes become an explicit
`StreamState`, floats become rationals, the `pylru.lrucache` becomes a
most-recently-used-first list of keys, and each HTTP interaction is an input
record describing the response the network would deliver.  Python exceptions
are modelled by the `PyError` type: `streamException` is the library's own
`StreamException` (the only kind the generator's `except` clause catches),
while `keyError` / `valueError` model built-in exceptions that no handler in
`stream.py` catches.
-/

/-- `STREAM_LIMIT_PER_FETCH` from stream.py. -/
def STREAM_LIMIT_PER_FETCH : Nat := 100

/-- `BACKOFF_START` from stream.py (2.0). -/
def BACKOFF_START : ℚ := 2

/-- `BACKOFF_INCREASE_FACTOR` from stream.py. -/
def BACKOFF_INCREASE_FACTOR : ℚ := 2

/-- `BACKOFF_MAX` from stream.py (8.0). -/
def BACKOFF_MAX : ℚ := 8

/-- `LRU_CACHE_SIZE` from stream.py. -/
def LRU_CACHE_SIZE : Nat := 200

/-- The `data` record of one child of a listing response: the fields
`stream.py` reads are `id` (base-36 sortable identifier) and `name`
(the fullname `kind_id`). -/
structure ChildData where
  id : String
  name : String
deriving DecidableEq, Repr

/-- One child of a listing response: `{kind, data}`. -/
structure Child where
  kind : String
  data : ChildData
deriving DecidableEq, Repr

/-- Value of one base-36 digit, as accepted by Python's `int(_, 36)`. -/
def digit36 (c : Char) : Option Nat :=
  if '0' ≤ c ∧ c ≤ '9' then some (c.toNat - '0'.toNat)
  else if 'a' ≤ c ∧ c ≤ 'z' then some (c.toNat - 'a'.toNat + 10)
  else if 'A' ≤ c ∧ c ≤ 'Z' then some (c.toNat - 'A'.toNat + 10)
  else none

/-- Python's `int(s, 36)` on an unsigned alphanumeric string; `none` models the
`ValueError` raised on a malformed identifier. -/
def parseBase36 (s : String) : Option Nat :=
  if s.data.isEmpty then none
  else s.data.foldl (fun acc c => acc.bind fun a => (digit36 c).map fun d => a * 36 + d)
    (some 0)

/-- Value of one decimal digit. -/
def digit10 (c : Char) : Option Nat :=
  if '0' ≤ c ∧ c ≤ '9' then some (c.toNat - '0'.toNat) else none

/-- Reads a run of decimal digits; an empty run yields `0` (the caller rules
out the all-empty string). -/
def digitsToNat (l : List Char) : Option Nat :=
  l.foldl (fun acc c => acc.bind fun a => (digit10 c).map fun d => a * 10 + d) (some 0)

/-- Python's `float(s)` on plain decimal notation (`"12"`, `"12.5"`, `".5"`,
`"12."`); `none` models the `ValueError` raised on a malformed string. -/
def parseFloat (s : String) : Option ℚ :=
  match s.data.splitOn '.' with
  | [intPart] =>
      if intPart.isEmpty then none else (digitsToNat intPart).map (fun i => (i : ℚ))
  | [intPart, fracPart] =>
      if intPart.isEmpty ∧ fracPart.isEmpty then none
      else (digitsToNat intPart).bind fun i => (digitsToNat fracPart).map fun f =>
        (i : ℚ) + (f : ℚ) / (10 : ℚ) ^ fracPart.length
  | _ => none

/-- `cache[k] = 1` on a `pylru.lrucache` of capacity `cap`, the cache being the
list of keys in most-recently-used-first order: an existing key moves to the
front; a new key is inserted at the front, evicting the least recently used
key when the cache is full. -/
def lruTouch (cap : Nat) (cache : List String) (k : String) : List String :=
  if k ∈ cache then k :: cache.erase k else (k :: cache).take cap

/-- Python exception kinds relevant to `stream.py`.  `streamException` is the
library's `StreamException`; `keyError` and `valueError` are the built-in
exceptions raised by a missing dictionary key resp. a failed numeric parse,
which nothing in `stream.py` catches. -/
inductive PyError where
  | streamException
  | keyError
  | valueError
deriving DecidableEq, Repr

/-- Insert `x` into `l` in front of the first element `y` with `le x y`;
inserting in front of equal elements is what makes the sort below stable. -/
def insertSorted {α : Type} (le : α → α → Bool) (x : α) : List α → List α
  | [] => [x]
  | y :: ys => if le x y then x :: y :: ys else y :: insertSorted le x ys

/-- A stable sort.  Python's `sorted` is a stable sort, and a stable sort by a
given comparison is unique as a function, so this structurally recursive
insertion sort is extensionally the same function as `sorted`. -/
def stableSort {α : Type} (le : α → α → Bool) : List α → List α
  | [] => []
  | x :: xs => insertSorted le x (stableSort le xs)

/-- The comparison used by `stream_listing` line 147: the `id` field read as a
base-36 integer. -/
def childLe (a b : Child) : Bool :=
  decide ((parseBase36 a.data.id).getD 0 ≤ (parseBase36 b.data.id).getD 0)

/-- `sorted(children, key=lambda c: int(c['data']['id'], 36))`: Python first
evaluates the key on every element (raising `ValueError` on a malformed id),
then stable-sorts by the keys. -/
def sortChildrenE (children : List Child) : Except PyError (List Child) :=
  if children.all (fun c => (parseBase36 c.data.id).isSome) then
    .ok (stableSort childLe children)
  else .error .valueError

/-- The `for count, child in enumerate(sorted_children)` loop of
`stream_listing` (lines 148-158): yield the child's `data` when its fullname
is not cached, unconditionally record the fullname in the LRU cache, and
advance `latest_before` to the fullname when `count != len(children) - 1`.
`total` is `len(children)` and `count` the enumeration index.  Returns the
yielded data records, the final cache and the final `latest_before`. -/
def processLoop (total count : Nat) (cache : List String) (before : Option String) :
    List Child → List ChildData × List String × Option String
  | [] => ([], cache, before)
  | child :: rest =>
      let d := child.data
      let fullname := d.name
      let emitNow : List ChildData := if fullname ∈ cache then [] else [d]
      let r := processLoop total (count + 1) (lruTouch LRU_CACHE_SIZE cache fullname)
        (if count ≠ total - 1 then some fullname else before) rest
      (emitNow ++ r.1, r.2.1, r.2.2)

/-- Lines 147-166 of `stream_listing`: sort the children by base-36 id, run
the emission loop, and reset `latest_before` to `None` when the batch was
empty. -/
def processChildren (cache : List String) (before : Option String) (children : List Child) :
    Except PyError (List ChildData × List String × Option String) :=
  match sortChildrenE children with
  | .error e => .error e
  | .ok sortedChildren =>
      let r := processLoop children.length 0 cache before sortedChildren
      .ok (r.1, r.2.1, if children.length = 0 then none else r.2.2)

/-- The batch-processing part of the stream iterated over successive fetched
batches, threading the LRU cache and the `latest_before` cursor. -/
def runBatches (cache : List String) (before : Option String) :
    List (List Child) → Except PyError (List ChildData × List String × Option String)
  | [] => .ok ([], cache, before)
  | b :: rest =>
      match processChildren cache before b with
      | .error e => .error e
      | .ok (em, c', b') =>
          match runBatches c' b' rest with
          | .error e => .error e
          | .ok (em2, c'', b'') => .ok (em ++ em2, c'', b'')

/-- The cache contents after the loop has touched each fullname of `names` in
order, starting from `cache`. -/
def cacheAfter (cap : Nat) (cache : List String) (names : List String) : List String :=
  names.foldl (lruTouch cap) cache

/-- The fullnames the loop emits while touching each fullname of `names` in
order: a fullname is emitted exactly when it is absent from the cache at its
turn. -/
def emittedFlat (cap : Nat) (cache : List String) : List String → List String
  | [] => []
  | k :: rest => (if k ∈ cache then [] else [k]) ++ emittedFlat cap (lruTouch cap cache k) rest

/-- The mutable attributes of a `RedditStream` instance: `access_token`,
`expires` and `latest_before`.  `__init__` sets them to `None`, `-1`, `None`. -/
structure StreamState where
  access_token : Option String
  expires : ℚ
  latest_before : Option String
deriving DecidableEq, Repr

/-- The attribute values set by `__init__` (and restored by `reset_stream`). -/
def initState : StreamState := ⟨none, -1, none⟩

/-- What the token endpoint answers to the POST in `_update_access_token`:
`ok` is `response.ok`, `hasError` whether the body has an `'error'` key,
and `access_token` / `expires_in` the relevant body fields (`expires_in`
already read as an integer, as `int(...)` does). -/
structure TokenResponse where
  ok : Bool
  hasError : Bool
  access_token : String
  expires_in : Int
deriving DecidableEq, Repr

/-- `_update_access_token` (lines 37-64): on a non-ok status or an `'error'`
key in the body it raises `StreamException`; otherwise it stores the returned
token and sets `expires = time.time() + int(expires_in) * 0.9`.  Returns the
(possibly updated) attribute state together with the raised exception, if
any. -/
def updateAccessToken (s : StreamState) (resp : TokenResponse) (now : ℚ) :
    StreamState × Option PyError :=
  if resp.ok = false then (s, some .streamException)
  else if resp.hasError then (s, some .streamException)
  else
    ({ s with access_token := some resp.access_token
            , expires := now + (resp.expires_in : ℚ) * (9 / 10) }, none)

/-- `_check_token_expiry` (lines 66-68): performs the token exchange exactly
when `expires == -1 or time.time() > expires`.  The third component records
whether `_update_access_token` was invoked. -/
def checkTokenExpiry (s : StreamState) (resp : TokenResponse) (now : ℚ) :
    StreamState × Option PyError × Bool :=
  if s.expires = -1 ∨ now > s.expires then
    let r := updateAccessToken s resp now
    (r.1, r.2, true)
  else (s, none, false)

/-- What the listing endpoint answers to the GET in `_get_raw_listing`:
`ok` is `response.ok`, `children` the parsed `data.children` array, and the
three header fields are the raw string values of `X-Ratelimit-Used`,
`X-Ratelimit-Remaining` and `X-Ratelimit-Reset` (`none` when the header is
absent, in which case the dictionary lookup raises `KeyError`). -/
structure ListingResponse where
  ok : Bool
  children : List Child
  headerUsed : Option String
  headerRemaining : Option String
  headerReset : Option String
deriving DecidableEq, Repr

/-- Everything the outside world contributes to one iteration of the
`while True` loop of `stream_listing`: the current wall-clock time, the
token endpoint's answer (used only if a token exchange happens), whether the
GET raises a transport-level `requests` exception, the listing response
otherwise, and the elapsed processing time `time.time() - time_start`
observed at line 172. -/
structure CycleInput where
  now : ℚ
  tokenResp : TokenResponse
  transportFail : Bool
  listing : ListingResponse
  elapsed : ℚ
deriving DecidableEq, Repr

/-- `rl_sleep` (line 171): the full reset window when no requests remain,
otherwise the per-request share scaled by the concurrency level. -/
def rlSleep (reset remaining conc : ℚ) : ℚ :=
  if remaining = 0 then reset else reset / remaining * conc

/-- `t_sleep` (line 173): `max(rl_sleep - process_time, 0) + extra_delay`. -/
def tSleep (rl elapsed extra : ℚ) : ℚ :=
  max (rl - elapsed) 0 + extra

/-- Outcome of one loop iteration: a completed cycle about to sleep `t`
seconds (the pacing sleep of line 179), a `StreamException` caught by the
`except` clause at line 180, or an uncaught exception that propagates out of
the generator. -/
inductive CycleOutcome where
  | success (t : ℚ)
  | caught
  | uncaught (e : PyError)
deriving DecidableEq, Repr

/-- Result of one loop iteration: instance state, LRU cache contents, the
data records yielded during the iteration, and the outcome. -/
structure CycleRes where
  state : StreamState
  cache : List String
  emitted : List ChildData
  outcome : CycleOutcome
deriving DecidableEq, Repr

/-- One iteration of the `try` block of `stream_listing` (lines 126-179),
inlining `_get_raw_listing`: refresh the token if needed (a failed exchange
raises `StreamException`), fail as `StreamException` on a transport error or
a non-ok status, raise `KeyError` if a rate-limit header is missing, sort and
process the children (updating cache and cursor), then parse the
`Reset`/`Remaining` header values with `float` (raising `ValueError` on a
malformed value) and compute the pacing sleep. -/
def runCycle (s : StreamState) (cache : List String) (conc extra : ℚ)
    (inp : CycleInput) : CycleRes :=
  match checkTokenExpiry s inp.tokenResp inp.now with
  | (s', some _, _) => ⟨s', cache, [], .caught⟩
  | (s', none, _) =>
    if inp.transportFail then ⟨s', cache, [], .caught⟩
    else if inp.listing.ok = false then ⟨s', cache, [], .caught⟩
    else
      match inp.listing.headerUsed, inp.listing.headerRemaining, inp.listing.headerReset with
      | some _, some remainingStr, some resetStr =>
        match processChildren cache s'.latest_before inp.listing.children with
        | .error e => ⟨s', cache, [], .uncaught e⟩
        | .ok (emitted, cache', before') =>
          let s'' := { s' with latest_before := before' }
          match parseFloat resetStr, parseFloat remainingStr with
          | some rlReset, some rlRemaining =>
            ⟨s'', cache', emitted, .success (tSleep (rlSleep rlReset rlRemaining conc) inp.elapsed extra)⟩
          | _, _ => ⟨s'', cache', emitted, .uncaught .valueError⟩
      | _, _, _ => ⟨s', cache, [], .uncaught .keyError⟩

/-- A sleep observed by the consumer between yields: the pacing sleep at line
179 of a successful cycle, or the backoff sleep at line 185 after a caught
`StreamException`. -/
inductive SleepEvent where
  | pacing (t : ℚ)
  | backoffSleep (t : ℚ)
deriving DecidableEq, Repr

/-- Result of running the generator over finitely many cycles: final instance
state, cache, backoff value, all yielded records, the observed sleeps, and
the uncaught exception that terminated the generator, if any. -/
structure RunRes where
  state : StreamState
  cache : List String
  backoff : ℚ
  emitted : List ChildData
  sleeps : List SleepEvent
  err : Option PyError
deriving DecidableEq, Repr

/-- The `while True` loop of `stream_listing` driven by a finite list of
cycle inputs.  A successful cycle sleeps its pacing delay and resets the
backoff to `BACKOFF_START`; a caught `StreamException` sleeps the current
backoff and then doubles it, capped at `BACKOFF_MAX`; an uncaught exception
stops the loop immediately and propagates to the consumer. -/
def streamRun (s : StreamState) (cache : List String) (backoff : ℚ) (conc extra : ℚ) :
    List CycleInput → RunRes
  | [] => ⟨s, cache, backoff, [], [], none⟩
  | inp :: rest =>
      let r := runCycle s cache conc extra inp
      match r.outcome with
      | .success t =>
          let rr := streamRun r.state r.cache BACKOFF_START conc extra rest
          ⟨rr.state, rr.cache, rr.backoff, r.emitted ++ rr.emitted, .pacing t :: rr.sleeps, rr.err⟩
      | .caught =>
          let rr := streamRun r.state r.cache
            (min (backoff * BACKOFF_INCREASE_FACTOR) BACKOFF_MAX) conc extra rest
          ⟨rr.state, rr.cache, rr.backoff, r.emitted ++ rr.emitted,
            .backoffSleep backoff :: rr.sleeps, rr.err⟩
      | .uncaught e => ⟨r.state, r.cache, backoff, r.emitted, [], some e⟩

/-- `stream_listing` (line 109): the generator starts with a fresh LRU cache
and `backoff = BACKOFF_START`. -/
def streamListing (s : StreamState) (conc extra : ℚ) (inputs : List CycleInput) : RunRes :=
  streamRun s [] BACKOFF_START conc extra inputs

/-! ### Basic facts about the embedded operations -/

/-- A token check on a non-expired token does nothing. -/
theorem checkTokenExpiry_fresh {s : StreamState} {resp : TokenResponse} {now : ℚ}
    (h : ¬(s.expires = -1 ∨ now > s.expires)) :
    checkTokenExpiry s resp now = (s, none, false) := by
  simp [checkTokenExpiry, h]

/-- On a fresh token, a cycle whose GET succeeds with all three rate-limit
headers present reduces to child processing plus header parsing. -/
theorem runCycle_ok {s : StreamState} {cache : List String} {conc extra : ℚ}
    {inp : CycleInput} {us rs ss : String}
    (hfresh : ¬(s.expires = -1 ∨ inp.now > s.expires))
    (htr : inp.transportFail = false) (hok : inp.listing.ok = true)
    (hU : inp.listing.headerUsed = some us)
    (hR : inp.listing.headerRemaining = some rs)
    (hS : inp.listing.headerReset = some ss) :
    runCycle s cache conc extra inp =
      match processChildren cache s.latest_before inp.listing.children with
      | .error e => ⟨s, cache, [], .uncaught e⟩
      | .ok (emitted, cache', before') =>
        let s'' := { s with latest_before := before' }
        match parseFloat ss, parseFloat rs with
        | some rlReset, some rlRemaining =>
          ⟨s'', cache', emitted,
            .success (tSleep (rlSleep rlReset rlRemaining conc) inp.elapsed extra)⟩
        | _, _ => ⟨s'', cache', emitted, .uncaught .valueError⟩ := by
  simp [runCycle, checkTokenExpiry_fresh hfresh, htr, hok, hU, hR, hS]

/-! ### C9: a failed token exchange raises and leaves the state untouched -/

/-- C9: if the token exchange fails — a non-success HTTP status, or an
`'error'` field present in the response JSON — then `_update_access_token`
raises (a `StreamException`) and the stored `access_token` and `expires`
fields are left exactly as they were before the call, for every prior token
state. -/
theorem C9_update_access_token_failure (s : StreamState) (resp : TokenResponse) (now : ℚ)
    (h : resp.ok = false ∨ resp.hasError = true) :
    (updateAccessToken s resp now).2 = some .streamException ∧
      (updateAccessToken s resp now).1 = s := by
  rcases h with h | h
  · simp [updateAccessToken, h]
  · rcases hok : resp.ok with _ | _ <;> simp [updateAccessToken, h, hok]

/-- Witness for C9 at a concrete failing response and a concrete prior state. -/
theorem C9_witness :
    (updateAccessToken ⟨some "old", 7, some "cur"⟩ ⟨false, false, "new", 3600⟩ 100).2
        = some .streamException ∧
      (updateAccessToken ⟨some "old", 7, some "cur"⟩ ⟨false, false, "new", 3600⟩ 100).1
        = ⟨some "old", 7, some "cur"⟩ :=
  C9_update_access_token_failure ⟨some "old", 7, some "cur"⟩ ⟨false, false, "new", 3600⟩ 100
    (Or.inl rfl)

/-! ### C7: the token refresh condition and the stored expiry -/

/-- C7: `_check_token_expiry` performs a token exchange if and only if the
stored expiry is the unset sentinel `-1` or the current time is strictly
greater than the expiry — so a token whose expiry is `now - 1` triggers
exactly one token exchange — and on a successful exchange it stores the
returned access token and sets the expiry to `now` plus 90% of the
server-declared lifetime in seconds. -/
theorem C7_check_token_expiry (s : StreamState) (resp : TokenResponse) (now : ℚ) :
    ((checkTokenExpiry s resp now).2.2 = true ↔ (s.expires = -1 ∨ now > s.expires)) ∧
      (resp.ok = true → resp.hasError = false → (s.expires = -1 ∨ now > s.expires) →
        (checkTokenExpiry s resp now).1.access_token = some resp.access_token ∧
          (checkTokenExpiry s resp now).1.expires
            = now + (resp.expires_in : ℚ) * (9 / 10)) := by
  constructor
  · by_cases h : s.expires = -1 ∨ now > s.expires <;>
      simp [checkTokenExpiry, h]
  · intro hok herr h
    simp [checkTokenExpiry, h, updateAccessToken, hok, herr]

/-- Witness for C7: a token whose expiry is `now - 1` (here `now = 100`,
expiry `99`) triggers the exchange, and a successful exchange with declared
lifetime 3600 stores the token and the expiry `100 + 3600 * 9/10`. -/
theorem C7_witness :
    ((checkTokenExpiry ⟨none, 99, none⟩ ⟨true, false, "tok", 3600⟩ 100).2.2 = true
        ↔ ((99 : ℚ) = -1 ∨ (100 : ℚ) > 99)) ∧
      ((checkTokenExpiry ⟨none, 99, none⟩ ⟨true, false, "tok", 3600⟩ 100).1.access_token
          = some "tok" ∧
        (checkTokenExpiry ⟨none, 99, none⟩ ⟨true, false, "tok", 3600⟩ 100).1.expires
          = 100 + (3600 : ℚ) * (9 / 10)) := by
  refine ⟨(C7_check_token_expiry ⟨none, 99, none⟩ ⟨true, false, "tok", 3600⟩ 100).1, ?_⟩
  exact (C7_check_token_expiry ⟨none, 99, none⟩ ⟨true, false, "tok", 3600⟩ 100).2 rfl rfl
    (Or.inr (by norm_num))

/-! ### C8: an empty batch resets the cursor -/

/-- C8: for every cycle in which the fetched batch contains zero children,
the cursor `latest_before` is reset to unset (`None`), so the next fetch
requests the first page with no `before` parameter. -/
theorem C8_empty_batch_resets_cursor (s : StreamState) (cache : List String)
    (conc extra : ℚ) (inp : CycleInput) (us rs ss : String)
    (hfresh : ¬(s.expires = -1 ∨ inp.now > s.expires))
    (htr : inp.transportFail = false) (hok : inp.listing.ok = true)
    (hU : inp.listing.headerUsed = some us)
    (hR : inp.listing.headerRemaining = some rs)
    (hS : inp.listing.headerReset = some ss)
    (hchildren : inp.listing.children = []) :
    (runCycle s cache conc extra inp).state.latest_before = none := by
  rw [runCycle_ok hfresh htr hok hU hR hS, hchildren]
  simp only [processChildren, sortChildrenE, List.all_nil, if_true, stableSort,
    processLoop, List.length_nil, if_pos rfl]
  rcases parseFloat ss with _ | r₁ <;> rcases parseFloat rs with _ | r₂ <;> rfl

/-- Witness for C8: a concrete empty-batch cycle resets the cursor. -/
theorem C8_witness :
    (runCycle ⟨some "tok", 50, some "t3_x"⟩ ["t3_x"] 1 0
        ⟨0, ⟨true, false, "t", 1⟩, false, ⟨true, [], some "1", some "2", some "3"⟩, 0⟩
      ).state.latest_before = none :=
  C8_empty_batch_resets_cursor ⟨some "tok", 50, some "t3_x"⟩ ["t3_x"] 1 0
    ⟨0, ⟨true, false, "t", 1⟩, false, ⟨true, [], some "1", some "2", some "3"⟩, 0⟩
    "1" "2" "3" (by norm_num) rfl rfl rfl rfl rfl rfl

/-! ### C10: a singleton batch leaves the cursor untouched -/

/-- C10: for every fetched batch containing exactly one item, the cursor
`latest_before` is left completely unchanged: the single item is the last
item of its batch so its fullname is withheld from the cursor, and because
the batch is non-empty the empty-batch reset to unset does not fire either. -/
theorem C10_singleton_batch_keeps_cursor (s : StreamState) (cache : List String)
    (conc extra : ℚ) (inp : CycleInput) (us rs ss : String) (c : Child)
    (hfresh : ¬(s.expires = -1 ∨ inp.now > s.expires))
    (htr : inp.transportFail = false) (hok : inp.listing.ok = true)
    (hU : inp.listing.headerUsed = some us)
    (hR : inp.listing.headerRemaining = some rs)
    (hS : inp.listing.headerReset = some ss)
    (hchildren : inp.listing.children = [c])
    (hid : (parseBase36 c.data.id).isSome) :
    (runCycle s cache conc extra inp).state.latest_before = s.latest_before := by
  rw [runCycle_ok hfresh htr hok hU hR hS, hchildren]
  simp only [processChildren, sortChildrenE, List.all_cons, List.all_nil, hid,
    Bool.and_true, if_true, stableSort, insertSorted, processLoop, List.length_cons,
    List.length_nil, Nat.zero_add, Nat.sub_self, ne_eq, not_true_eq_false, if_false,
    Nat.one_ne_zero, if_neg]
  rcases parseFloat ss with _ | r₁ <;> rcases parseFloat rs with _ | r₂ <;> rfl

/-- Witness for C10: a concrete one-item batch leaves `latest_before` as it
was, here `some "t3_prev"`. -/
theorem C10_witness :
    (runCycle ⟨some "tok", 50, some "t3_prev"⟩ [] 1 0
        ⟨0, ⟨true, false, "t", 1⟩, false,
          ⟨true, [⟨"t3", ⟨"ab", "t3_ab"⟩⟩], some "1", some "2", some "3"⟩, 0⟩
      ).state.latest_before = some "t3_prev" :=
  C10_singleton_batch_keeps_cursor ⟨some "tok", 50, some "t3_prev"⟩ [] 1 0
    ⟨0, ⟨true, false, "t", 1⟩, false,
      ⟨true, [⟨"t3", ⟨"ab", "t3_ab"⟩⟩], some "1", some "2", some "3"⟩, 0⟩
    "1" "2" "3" ⟨"t3", ⟨"ab", "t3_ab"⟩⟩ (by norm_num) rfl rfl rfl rfl rfl rfl
    (by decide)

/-! ### C5: the pacing delay formula -/

/-- C5: for every successful cycle, the pacing delay is computed as:
target delay = `reset` when `remaining == 0`, otherwise `reset / remaining`
scaled by the concurrency level; the slept delay is
`max(target - elapsed, 0) + extra`, hence non-negative whenever
`extra ≥ 0`. -/
theorem C5_pacing_delay (s : StreamState) (cache : List String) (conc extra : ℚ)
    (inp : CycleInput) (us rs ss : String) (reset remaining : ℚ)
    (hfresh : ¬(s.expires = -1 ∨ inp.now > s.expires))
    (htr : inp.transportFail = false) (hok : inp.listing.ok = true)
    (hU : inp.listing.headerUsed = some us)
    (hR : inp.listing.headerRemaining = some rs)
    (hS : inp.listing.headerReset = some ss)
    (hreset : parseFloat ss = some reset)
    (hremaining : parseFloat rs = some remaining)
    (hids : inp.listing.children.all (fun c => (parseBase36 c.data.id).isSome) = true) :
    (runCycle s cache conc extra inp).outcome
        = .success
            (max ((if remaining = 0 then reset else reset / remaining * conc) - inp.elapsed) 0
              + extra) ∧
      (0 ≤ extra →
        0 ≤ max ((if remaining = 0 then reset else reset / remaining * conc) - inp.elapsed) 0
              + extra) := by
  constructor
  · rw [runCycle_ok hfresh htr hok hU hR hS]
    have hsort : sortChildrenE inp.listing.children
        = .ok (stableSort childLe inp.listing.children) := by
      simp [sortChildrenE, hids]
    simp [processChildren, hsort, hreset, hremaining, tSleep, rlSleep]
  · intro hx
    exact add_nonneg (le_max_right _ 0) hx

/-- Witness for C5: rate snapshot `(remaining=5, reset=10)`, concurrency 1,
elapsed 1 s, extra 0 gives a pacing sleep of exactly 1 second. -/
theorem C5_witness :
    (runCycle ⟨some "tok", 50, none⟩ [] 1 0
        ⟨0, ⟨true, false, "t", 1⟩, false, ⟨true, [], some "7", some "5", some "10"⟩, 1⟩
      ).outcome = .success 1 := by
  rw [(C5_pacing_delay ⟨some "tok", 50, none⟩ [] 1 0
    ⟨0, ⟨true, false, "t", 1⟩, false, ⟨true, [], some "7", some "5", some "10"⟩, 1⟩
    "7" "5" "10" 10 5 (by norm_num) rfl rfl rfl rfl rfl (by decide) (by decide) rfl).1]
  norm_num

/-! ### Sorting lemmas for the stable sort -/

/-- Inserting permutes. -/
theorem insertSorted_perm {α : Type} (le : α → α → Bool) (x : α) :
    ∀ l : List α, (insertSorted le x l).Perm (x :: l)
  | [] => List.Perm.refl _
  | y :: ys => by
      rw [insertSorted]
      by_cases h : le x y = true
      · simp [h]
      · simp only [h, if_false]
        exact ((insertSorted_perm le x ys).cons y).trans (List.Perm.swap x y ys)

/-- The stable sort permutes its input. -/
theorem stableSort_perm {α : Type} (le : α → α → Bool) :
    ∀ l : List α, (stableSort le l).Perm l
  | [] => List.Perm.refl _
  | x :: xs =>
      (insertSorted_perm le x (stableSort le xs)).trans ((stableSort_perm le xs).cons x)

/-- Membership in an insertion. -/
theorem mem_insertSorted {α : Type} {le : α → α → Bool} {x y : α} {l : List α}
    (h : y ∈ insertSorted le x l) : y = x ∨ y ∈ l := by
  have := (insertSorted_perm le x l).mem_iff.mp h
  simpa using this

/-- Inserting into a sorted list keeps it sorted, for a total transitive
comparison. -/
theorem pairwise_insertSorted {α : Type} {le : α → α → Bool}
    (htot : ∀ a b, le a b = true ∨ le b a = true)
    (htrans : ∀ a b c, le a b = true → le b c = true → le a c = true) (x : α) :
    ∀ l : List α, l.Pairwise (fun a b => le a b = true) →
      (insertSorted le x l).Pairwise (fun a b => le a b = true)
  | [], _ => by simp [insertSorted]
  | y :: ys, h => by
      rw [List.pairwise_cons] at h
      rw [insertSorted]
      by_cases hxy : le x y = true
      · rw [if_pos hxy, List.pairwise_cons]
        refine ⟨?_, List.pairwise_cons.mpr h⟩
        intro b hb
        rcases List.mem_cons.mp hb with rfl | hb
        · exact hxy
        · exact htrans x y b hxy (h.1 b hb)
      · rw [if_neg hxy, List.pairwise_cons]
        have hyx : le y x = true := (htot x y).resolve_left hxy
        refine ⟨?_, pairwise_insertSorted htot htrans x ys h.2⟩
        intro b hb
        rcases mem_insertSorted hb with rfl | hb
        · exact hyx
        · exact h.1 b hb

/-- The stable sort sorts, for a total transitive comparison. -/
theorem pairwise_stableSort {α : Type} {le : α → α → Bool}
    (htot : ∀ a b, le a b = true ∨ le b a = true)
    (htrans : ∀ a b c, le a b = true → le b c = true → le a c = true) :
    ∀ l : List α, (stableSort le l).Pairwise (fun a b => le a b = true)
  | [] => List.Pairwise.nil
  | x :: xs => pairwise_insertSorted htot htrans x _ (pairwise_stableSort htot htrans xs)

/-- The records yielded by the loop are the `data` fields of a subsequence of
the (sorted) children it walks. -/
theorem processLoop_emitted_sublist :
    ∀ (l : List Child) (total count : Nat) (cache : List String) (before : Option String),
      ∃ t : List Child, t.Sublist l ∧ (processLoop total count cache before l).1
        = t.map (·.data)
  | [], _, _, _, _ => ⟨[], List.Sublist.refl _, rfl⟩
  | child :: rest, total, count, cache, before => by
      obtain ⟨t, hsub, hem⟩ := processLoop_emitted_sublist rest total (count + 1)
        (lruTouch LRU_CACHE_SIZE cache child.data.name)
        (if count = total - 1 then before else some child.data.name)
      rw [processLoop]
      by_cases hmem : child.data.name ∈ cache
      · exact ⟨t, hsub.cons child, by simp [hmem, ite_not, hem]⟩
      · exact ⟨child :: t, hsub.cons₂ child, by simp [hmem, ite_not, hem]⟩

/-! ### C4: emission order within a batch -/

/-- C4: within every fetched batch, items are emitted to the consumer in
non-decreasing order of their sortable identifier: before emission the batch
is sorted ascending by the `id` field interpreted as a base-36 integer, so
the consumer observes oldest-to-newest order within a batch. -/
theorem C4_emitted_sorted (cache : List String) (before : Option String)
    (children : List Child) (emitted : List ChildData) (cache' : List String)
    (before' : Option String)
    (h : processChildren cache before children = .ok (emitted, cache', before')) :
    emitted.Pairwise
      (fun a b : ChildData => (parseBase36 a.id).getD 0 ≤ (parseBase36 b.id).getD 0) := by
  rcases hs : sortChildrenE children with e | sc
  · rw [processChildren, hs] at h
    cases h
  · rw [processChildren, hs] at h
    have hsc : sc = stableSort childLe children := by
      rw [sortChildrenE] at hs
      by_cases hall : children.all (fun c => (parseBase36 c.data.id).isSome)
      · rw [if_pos hall] at hs
        cases hs
        rfl
      · rw [if_neg hall] at hs
        cases hs
    obtain ⟨t, hsub, hem⟩ := processLoop_emitted_sublist sc children.length 0 cache before
    have hemitted : emitted = t.map (·.data) := by
      have := congrArg (fun r : Except PyError (List ChildData × List String × Option String) =>
        r) h
      cases h
      exact hem
    have hsorted : sc.Pairwise (fun a b => childLe a b = true) := by
      rw [hsc]
      refine pairwise_stableSort ?_ ?_ children
      · intro a b
        rcases Nat.le_total ((parseBase36 a.data.id).getD 0) ((parseBase36 b.data.id).getD 0)
          with h | h
        · exact Or.inl (by simp [childLe, h])
        · exact Or.inr (by simp [childLe, h])
      · intro a b c hab hbc
        simp only [childLe, decide_eq_true_eq] at hab hbc ⊢
        exact le_trans hab hbc
    have ht : t.Pairwise (fun a b => childLe a b = true) := hsorted.sublist hsub
    rw [hemitted, List.pairwise_map]
    exact ht.imp (fun hab => by simpa [childLe, decide_eq_true_eq] using hab)

/-- Witness for C4: a concrete two-item batch arriving newest-first is
emitted oldest-first. -/
theorem C4_witness :
    List.Pairwise
      (fun a b : ChildData => (parseBase36 a.id).getD 0 ≤ (parseBase36 b.id).getD 0)
      [⟨"1", "n1"⟩, ⟨"3", "n3"⟩] :=
  C4_emitted_sorted [] none [⟨"t3", ⟨"3", "n3"⟩⟩, ⟨"t3", ⟨"1", "n1"⟩⟩]
    [⟨"1", "n1"⟩, ⟨"3", "n3"⟩] ["n3", "n1"] (some "n1") (by rfl)

/-! ### Cursor lemmas for the processing loop -/

/-- Unfolding equation for one step of the loop. -/
theorem processLoop_cons (total count : Nat) (cache : List String) (before : Option String)
    (child : Child) (rest : List Child) :
    processLoop total count cache before (child :: rest)
      = ((if child.data.name ∈ cache then [] else [child.data])
           ++ (processLoop total (count + 1) (lruTouch LRU_CACHE_SIZE cache child.data.name)
               (if count ≠ total - 1 then some child.data.name else before) rest).1,
         (processLoop total (count + 1) (lruTouch LRU_CACHE_SIZE cache child.data.name)
             (if count ≠ total - 1 then some child.data.name else before) rest).2.1,
         (processLoop total (count + 1) (lruTouch LRU_CACHE_SIZE cache child.data.name)
             (if count ≠ total - 1 then some child.data.name else before) rest).2.2) := rfl

/-- Anything in a touched cache is the touched key or was already cached. -/
theorem mem_lruTouch {cap : Nat} {cache : List String} {k x : String}
    (h : x ∈ lruTouch cap cache k) : x = k ∨ x ∈ cache := by
  rw [lruTouch] at h
  by_cases hk : k ∈ cache
  · rw [if_pos hk] at h
    rcases List.mem_cons.mp h with rfl | h
    · exact Or.inl rfl
    · exact Or.inr (List.mem_of_mem_erase h)
  · rw [if_neg hk] at h
    rcases List.mem_cons.mp (List.mem_of_mem_take h) with rfl | h
    · exact Or.inl rfl
    · exact Or.inr h

/-- A sorted-children decomposition of a successful `sortChildrenE`. -/
theorem sortChildrenE_ok {children sc : List Child}
    (h : sortChildrenE children = .ok sc) :
    sc = stableSort childLe children ∧ sc.length = children.length := by
  rw [sortChildrenE] at h
  by_cases hall : children.all (fun c => (parseBase36 c.data.id).isSome)
  · rw [if_pos hall] at h
    cases h
    exact ⟨rfl, (stableSort_perm childLe children).length_eq⟩
  · rw [if_neg hall] at h
    cases h

/-- Provenance invariant of the loop: if every initially cached fullname and
the initial cursor value satisfy `Q`, then every fullname in the final cache
and any final cursor value either satisfies `Q` or belongs to the records
emitted during the loop. -/
theorem processLoop_provenance :
    ∀ (l : List Child) (Q : String → Prop) (total count : Nat) (cache : List String)
      (before : Option String),
      (∀ x ∈ cache, Q x) → (∀ x, before = some x → Q x) →
      (∀ x ∈ (processLoop total count cache before l).2.1,
          Q x ∨ x ∈ (processLoop total count cache before l).1.map (·.name)) ∧
        (∀ x, (processLoop total count cache before l).2.2 = some x →
          Q x ∨ x ∈ (processLoop total count cache before l).1.map (·.name))
  | [], Q, total, count, cache, before, hc, hb =>
      ⟨fun x hx => Or.inl (hc x hx), fun x hx => Or.inl (hb x hx)⟩
  | child :: rest, Q, total, count, cache, before, hc, hb => by
      have hb' : ∀ x, (if count ≠ total - 1 then some child.data.name else before) = some x →
          Q x ∨ x = child.data.name := by
        intro x hx
        by_cases hcnt : count ≠ total - 1
        · rw [if_pos hcnt] at hx
          exact Or.inr (Option.some.inj hx).symm
        · rw [if_neg hcnt] at hx
          exact Or.inl (hb x hx)
      have hc' : ∀ x ∈ lruTouch LRU_CACHE_SIZE cache child.data.name,
          Q x ∨ x = child.data.name := by
        intro x hx
        rcases mem_lruTouch hx with rfl | hx
        · exact Or.inr rfl
        · exact Or.inl (hc x hx)
      have ih := processLoop_provenance rest (fun x => Q x ∨ x = child.data.name) total
        (count + 1) (lruTouch LRU_CACHE_SIZE cache child.data.name)
        (if count ≠ total - 1 then some child.data.name else before) hc'
        (fun x hx => hb' x hx)
      rw [processLoop_cons]
      constructor
      · intro x hx
        rcases ih.1 x hx with (hq | rfl) | hmap
        · exact Or.inl hq
        · by_cases hmem : child.data.name ∈ cache
          · exact Or.inl (hc _ hmem)
          · refine Or.inr ?_
            rw [if_neg hmem]
            simp
        · refine Or.inr ?_
          rw [List.map_append, List.mem_append]
          exact Or.inr hmap
      · intro x hx
        rcases ih.2 x hx with (hq | rfl) | hmap
        · exact Or.inl hq
        · by_cases hmem : child.data.name ∈ cache
          · exact Or.inl (hc _ hmem)
          · refine Or.inr ?_
            rw [if_neg hmem]
            simp
        · refine Or.inr ?_
          rw [List.map_append, List.mem_append]
          exact Or.inr hmap

/-- For a batch of at least two items, the loop leaves the cursor at the
fullname of the second-to-last item of the sorted batch. -/
theorem processLoop_before_append :
    ∀ (l₀ : List Child) (a b : Child) (total count : Nat) (cache : List String)
      (before : Option String),
      count + (l₀.length + 2) = total →
      (processLoop total count cache before (l₀ ++ [a, b])).2.2 = some a.data.name
  | [], a, b, total, count, cache, before, h => by
      have h' : count + 2 = total := by simpa using h
      have h1 : count ≠ total - 1 := by omega
      have h2 : ¬ (count + 1 ≠ total - 1) := by omega
      rw [List.nil_append]
      rw [show (([a, b] : List Child) = a :: [b]) from rfl, processLoop_cons]
      rw [processLoop_cons]
      rw [if_pos h1, if_neg h2]
      rfl
  | x :: l₀, a, b, total, count, cache, before, h => by
      have h' : count + (l₀.length + 3) = total := by
        simpa [Nat.add_assoc, Nat.add_comm, Nat.add_left_comm] using h
      have h1 : count ≠ total - 1 := by omega
      have ih := processLoop_before_append l₀ a b total (count + 1)
        (lruTouch LRU_CACHE_SIZE cache x.data.name) (some x.data.name) (by omega)
      rw [List.cons_append, processLoop_cons, if_pos h1]
      exact ih

/-! ### C2: cursor advancement -/

/-- C2: for every fetched batch, the cursor `latest_before` is advanced to
the fullname of each item processed in sorted order except the last one, so
it is never set to the fullname of the last item of a batch (for a batch of
at least two items it ends at the second-to-last sorted fullname, which under
distinct fullnames differs from the last one), and it only ever holds
fullnames of items emitted in the current batch or satisfying the invariant
`P` (instantiated with "emitted in an earlier batch") assumed of the incoming
cache and cursor. -/
theorem C2_cursor_advancement (cache : List String) (before : Option String)
    (children : List Child) (emitted : List ChildData) (cache' : List String)
    (before' : Option String) (sc : List Child) (P : String → Prop)
    (hsort : sortChildrenE children = .ok sc)
    (hrun : processChildren cache before children = .ok (emitted, cache', before'))
    (hP : ∀ x ∈ cache, P x) (hPb : ∀ x, before = some x → P x) :
    (∀ x, before' = some x → P x ∨ x ∈ emitted.map (·.name)) ∧
      (∀ x ∈ cache', P x ∨ x ∈ emitted.map (·.name)) ∧
      (∀ l₀ a b, sc = l₀ ++ [a, b] → before' = some a.data.name) ∧
      (∀ l₀ a b, sc = l₀ ++ [a, b] → (sc.map (·.data.name)).Nodup →
        before' ≠ some b.data.name) := by
  rw [processChildren, hsort] at hrun
  simp only [Except.ok.injEq, Prod.mk.injEq] at hrun
  obtain ⟨hem, hcache, hbef⟩ := hrun
  have hprov := processLoop_provenance sc P children.length 0 cache before hP hPb
  have hlen := (sortChildrenE_ok hsort).2
  have hthird : ∀ l₀ a b, sc = l₀ ++ [a, b] → before' = some a.data.name := by
    intro l₀ a b hdecomp
    have hlen2 : sc.length = l₀.length + 2 := by simp [hdecomp]
    have hne : ¬ children.length = 0 := by omega
    rw [← hbef, if_neg hne]
    rw [hdecomp]
    exact processLoop_before_append l₀ a b children.length 0 cache before (by omega)
  refine ⟨?_, ?_, hthird, ?_⟩
  · intro x hx
    by_cases hz : children.length = 0
    · rw [← hbef, if_pos hz] at hx
      cases hx
    · rw [← hbef, if_neg hz] at hx
      rcases hprov.2 x hx with hq | hmap
      · exact Or.inl hq
      · exact Or.inr (hem ▸ hmap)
  · intro x hx
    rcases hprov.1 x (hcache ▸ hx) with hq | hmap
    · exact Or.inl hq
    · exact Or.inr (hem ▸ hmap)
  · intro l₀ a b hdecomp hnodup
    rw [hthird l₀ a b hdecomp]
    intro hcontra
    have hab : a.data.name = b.data.name := Option.some.inj hcontra
    have : (([a, b] : List Child).map (·.data.name)).Nodup := by
      have := hnodup
      rw [hdecomp, List.map_append] at this
      exact this.of_append_right
    simp only [List.map_cons, List.map_nil, List.nodup_cons, List.mem_singleton] at this
    exact this.1 hab

/-- Witness for C2: a batch of three unseen items with ascending ids
`1, 2, 3` is emitted whole and in order, and afterwards the cursor equals the
fullname of the second item (`"nb"`), not that of the third (`"nc"`). -/
theorem C2_witness :
    processChildren [] none
        [⟨"t3", ⟨"1", "na"⟩⟩, ⟨"t3", ⟨"2", "nb"⟩⟩, ⟨"t3", ⟨"3", "nc"⟩⟩]
        = .ok ([⟨"1", "na"⟩, ⟨"2", "nb"⟩, ⟨"3", "nc"⟩], ["nc", "nb", "na"], some "nb") ∧
      (∀ x, (some "nb" : Option String) = some x →
        False ∨ x ∈ ([⟨"1", "na"⟩, ⟨"2", "nb"⟩, ⟨"3", "nc"⟩] : List ChildData).map (·.name)) ∧
      (some "nb" : Option String) ≠ some "nc" := by
  have happ := C2_cursor_advancement [] none
    [⟨"t3", ⟨"1", "na"⟩⟩, ⟨"t3", ⟨"2", "nb"⟩⟩, ⟨"t3", ⟨"3", "nc"⟩⟩]
    [⟨"1", "na"⟩, ⟨"2", "nb"⟩, ⟨"3", "nc"⟩] ["nc", "nb", "na"] (some "nb")
    [⟨"t3", ⟨"1", "na"⟩⟩, ⟨"t3", ⟨"2", "nb"⟩⟩, ⟨"t3", ⟨"3", "nc"⟩⟩]
    (fun _ => False) rfl rfl (by simp) (by simp)
  exact ⟨rfl, happ.1,
    happ.2.2.2 [⟨"t3", ⟨"1", "na"⟩⟩] ⟨"t3", ⟨"2", "nb"⟩⟩ ⟨"t3", ⟨"3", "nc"⟩⟩ rfl (by decide)⟩

/-! ### C6: exponential backoff -/

/-- A transport failure on a fresh token is caught and changes nothing. -/
theorem runCycle_caught_transport {s : StreamState} {cache : List String}
    {conc extra : ℚ} {inp : CycleInput}
    (hfresh : ¬(s.expires = -1 ∨ inp.now > s.expires)) (htr : inp.transportFail = true) :
    runCycle s cache conc extra inp = ⟨s, cache, [], .caught⟩ := by
  simp [runCycle, checkTokenExpiry_fresh hfresh, htr]

/-- Shifting the doubling-and-cap closed form by one step. -/
theorem min_double_pow {b : ℚ} (hb0 : 0 ≤ b) (k : Nat) :
    min (min (b * 2) 8 * 2 ^ k) 8 = min (b * 2 ^ (k + 1)) 8 := by
  have h2k : (1 : ℚ) ≤ 2 ^ k := one_le_pow₀ (by norm_num)
  rcases le_or_lt (b * 2) 8 with h | h
  · rw [min_eq_left h]
    ring_nf
  · rw [min_eq_right h.le]
    have h8 : (8 : ℚ) ≤ 8 * 2 ^ k := by nlinarith
    rw [min_eq_right h8]
    have hbig : (8 : ℚ) ≤ b * 2 ^ (k + 1) := by
      have hrw : b * 2 ^ (k + 1) = (b * 2) * 2 ^ k := by ring
      nlinarith
    rw [min_eq_right hbig]

/-- Closed form of a run of consecutively failing cycles: the `n`-th observed
backoff sleep is `min (b * 2 ^ n) 8`. -/
theorem streamRun_replicate_caught {s : StreamState} {cache : List String}
    {conc extra : ℚ} {inp : CycleInput}
    (hcycle : runCycle s cache conc extra inp = ⟨s, cache, [], .caught⟩) :
    ∀ (n : Nat) (b : ℚ), 0 ≤ b → b ≤ 8 →
      streamRun s cache b conc extra (List.replicate n inp)
        = ⟨s, cache, min (b * 2 ^ n) 8, [],
            (List.range n).map (fun k => .backoffSleep (min (b * 2 ^ k) 8)), none⟩
  | 0, b, hb0, hb8 => by
      simp [streamRun, pow_zero, mul_one, min_eq_left hb8]
  | n + 1, b, hb0, hb8 => by
      have hb'0 : (0 : ℚ) ≤ min (b * 2) 8 := le_min (by nlinarith) (by norm_num)
      have hb'8 : min (b * 2) 8 ≤ 8 := min_le_right _ _
      have ih := streamRun_replicate_caught hcycle n (min (b * 2) 8) hb'0 hb'8
      rw [List.replicate_succ]
      simp only [streamRun, hcycle]
      rw [show BACKOFF_INCREASE_FACTOR = (2 : ℚ) from rfl,
        show BACKOFF_MAX = (8 : ℚ) from rfl, ih]
      simp only [List.nil_append, RunRes.mk.injEq, true_and, and_true]
      refine ⟨min_double_pow hb0 n, ?_⟩
      rw [List.range_succ_eq_map, List.map_cons, List.map_map]
      refine congrArg₂ _ ?_ (List.map_congr_left fun k _ => ?_)
      · rw [pow_zero, mul_one, min_eq_left hb8]
      · show SleepEvent.backoffSleep (min (min (b * 2) 8 * 2 ^ k) 8)
          = SleepEvent.backoffSleep (min (b * 2 ^ (k + 1)) 8)
        rw [min_double_pow hb0 k]

/-- C6: the backoff delay starts at the floor (2 s); over consecutive failed
cycles the observed sleeps are `min (2 * 2 ^ k) 8`, so each sleep strictly
doubles while the doubled value is within the ceiling and never exceeds the
ceiling (8 s); and after any successful cycle the generator continues with
the backoff reset to the floor, regardless of how many consecutive failures
preceded it. -/
theorem C6_backoff (s : StreamState) (conc extra : ℚ) (inp : CycleInput)
    (hfresh : ¬(s.expires = -1 ∨ inp.now > s.expires))
    (htr : inp.transportFail = true) :
    (∀ n, (streamListing s conc extra (List.replicate n inp)).sleeps
        = (List.range n).map (fun k =>
            SleepEvent.backoffSleep
              (min (BACKOFF_START * BACKOFF_INCREASE_FACTOR ^ k) BACKOFF_MAX))) ∧
      (∀ n ev, ev ∈ (streamListing s conc extra (List.replicate n inp)).sleeps →
        ∃ t, ev = .backoffSleep t ∧ t ≤ BACKOFF_MAX) ∧
      (∀ k, BACKOFF_START * BACKOFF_INCREASE_FACTOR ^ (k + 1) ≤ BACKOFF_MAX →
        min (BACKOFF_START * BACKOFF_INCREASE_FACTOR ^ (k + 1)) BACKOFF_MAX
          = BACKOFF_INCREASE_FACTOR
              * min (BACKOFF_START * BACKOFF_INCREASE_FACTOR ^ k) BACKOFF_MAX) ∧
      (∀ (cache : List String) (b : ℚ) (good : CycleInput) (rest : List CycleInput) (t : ℚ),
        (runCycle s cache conc extra good).outcome = .success t →
        (streamRun s cache b conc extra (good :: rest)).backoff
            = (streamRun (runCycle s cache conc extra good).state
                (runCycle s cache conc extra good).cache BACKOFF_START conc extra rest).backoff
          ∧ (streamRun s cache b conc extra (good :: rest)).sleeps
            = .pacing t :: (streamRun (runCycle s cache conc extra good).state
                (runCycle s cache conc extra good).cache BACKOFF_START conc extra
                  rest).sleeps) := by
  have hclosed : ∀ n, streamListing s conc extra (List.replicate n inp)
      = ⟨s, [], min (BACKOFF_START * 2 ^ n) 8, [],
          (List.range n).map (fun k => .backoffSleep (min (BACKOFF_START * 2 ^ k) 8)), none⟩ :=
    fun n => streamRun_replicate_caught (runCycle_caught_transport hfresh htr) n
      BACKOFF_START (by norm_num [BACKOFF_START]) (by norm_num [BACKOFF_START])
  refine ⟨?_, ?_, ?_, ?_⟩
  · intro n
    rw [hclosed n]
    rfl
  · intro n ev hev
    rw [hclosed n] at hev
    simp only [List.mem_map, List.mem_range] at hev
    obtain ⟨k, _, rfl⟩ := hev
    exact ⟨_, rfl, min_le_right _ _⟩
  · intro k hk
    have h1 : (BACKOFF_INCREASE_FACTOR : ℚ) ^ k ≤ BACKOFF_INCREASE_FACTOR ^ (k + 1) :=
      pow_le_pow_right₀ (by norm_num [BACKOFF_INCREASE_FACTOR]) (by omega)
    have hk' : BACKOFF_START * BACKOFF_INCREASE_FACTOR ^ k ≤ BACKOFF_MAX := by
      rw [show BACKOFF_START = (2 : ℚ) from rfl] at hk ⊢
      rw [show BACKOFF_MAX = (8 : ℚ) from rfl] at hk ⊢
      nlinarith
    rw [min_eq_left hk, min_eq_left hk']
    rw [show BACKOFF_INCREASE_FACTOR = (2 : ℚ) from rfl]
    ring
  · intro cache b good rest t hsucc
    constructor <;> simp [streamRun, hsucc]

/-- Witness for C6: three consecutive transport failures produce the observed
backoff sleeps 2, 4, 8 (capped), a following successful cycle sleeps its
pacing delay instead, and the backoff is back at the floor 2 afterwards. -/
theorem C6_witness :
    (streamListing ⟨some "tok", 50, none⟩ 1 0
          [⟨0, ⟨true, false, "t", 1⟩, true, ⟨true, [], none, none, none⟩, 0⟩,
           ⟨0, ⟨true, false, "t", 1⟩, true, ⟨true, [], none, none, none⟩, 0⟩,
           ⟨0, ⟨true, false, "t", 1⟩, true, ⟨true, [], none, none, none⟩, 0⟩,
           ⟨0, ⟨true, false, "t", 1⟩, false, ⟨true, [], some "1", some "1", some "1"⟩, 0⟩]
        ).sleeps
      = [.backoffSleep 2, .backoffSleep 4, .backoffSleep 8, .pacing 1] ∧
      (streamListing ⟨some "tok", 50, none⟩ 1 0
          [⟨0, ⟨true, false, "t", 1⟩, true, ⟨true, [], none, none, none⟩, 0⟩,
           ⟨0, ⟨true, false, "t", 1⟩, true, ⟨true, [], none, none, none⟩, 0⟩,
           ⟨0, ⟨true, false, "t", 1⟩, true, ⟨true, [], none, none, none⟩, 0⟩,
           ⟨0, ⟨true, false, "t", 1⟩, false, ⟨true, [], some "1", some "1", some "1"⟩, 0⟩]
        ).backoff = 2 ∧
      (streamListing ⟨some "tok", 50, none⟩ 1 0
          (List.replicate 3 ⟨0, ⟨true, false, "t", 1⟩, true, ⟨true, [], none, none, none⟩, 0⟩)
        ).sleeps
        = (List.range 3).map (fun k =>
            SleepEvent.backoffSleep
              (min (BACKOFF_START * BACKOFF_INCREASE_FACTOR ^ k) BACKOFF_MAX)) := by
  have hfresh : ¬((50 : ℚ) = -1 ∨ (0 : ℚ) > 50) := by norm_num
  have hbad : runCycle ⟨some "tok", 50, none⟩ [] 1 0
      ⟨0, ⟨true, false, "t", 1⟩, true, ⟨true, [], none, none, none⟩, 0⟩
        = ⟨⟨some "tok", 50, none⟩, [], [], .caught⟩ :=
    runCycle_caught_transport hfresh rfl
  have hpc : processChildren [] none ([] : List Child) = .ok ([], [], none) := rfl
  have hpf : parseFloat "1" = some 1 := by decide
  have hgood : runCycle ⟨some "tok", 50, none⟩ [] 1 0
      ⟨0, ⟨true, false, "t", 1⟩, false, ⟨true, [], some "1", some "1", some "1"⟩, 0⟩
        = ⟨⟨some "tok", 50, none⟩, [], [], .success 1⟩ := by
    rw [runCycle_ok hfresh rfl rfl rfl rfl rfl]
    simp only [hpc, hpf]
    simp only [CycleRes.mk.injEq, true_and]
    norm_num [tSleep, rlSleep]
  refine ⟨?_, ?_, ?_⟩
  · simp only [streamListing, streamRun, hbad, hgood]
    norm_num [BACKOFF_START, BACKOFF_INCREASE_FACTOR, BACKOFF_MAX, min_def]
  · simp only [streamListing, streamRun, hbad, hgood]
    rfl
  · exact (C6_backoff ⟨some "tok", 50, none⟩ 1 0
      ⟨0, ⟨true, false, "t", 1⟩, true, ⟨true, [], none, none, none⟩, 0⟩
      hfresh rfl).1 3

/-! ### C1: error handling at the cycle boundary -/

/-- A non-success listing status on a fresh token raises `StreamException`,
which is caught. -/
theorem runCycle_caught_notok {s : StreamState} {cache : List String}
    {conc extra : ℚ} {inp : CycleInput}
    (hfresh : ¬(s.expires = -1 ∨ inp.now > s.expires))
    (htr : inp.transportFail = false) (hok : inp.listing.ok = false) :
    runCycle s cache conc extra inp = ⟨s, cache, [], .caught⟩ := by
  simp [runCycle, checkTokenExpiry_fresh hfresh, htr, hok]

/-- C1 counterexample input: a listing response with a 200 status whose
`X-Ratelimit-Used` header is absent. -/
def missingHeaderInput : CycleInput :=
  ⟨0, ⟨true, false, "t", 1⟩, false, ⟨true, [], none, some "1", some "1"⟩, 0⟩

/-- Counterexample to C1 as stated: on a listing response missing the
`X-Ratelimit-Used` header, the error is NOT converted into a backoff sleep
plus retry — no sleep is observed at all — and it DOES propagate to the
consumer and terminate the produced sequence, as the uncaught `KeyError`. -/
theorem C1_counterexample :
    (streamListing ⟨some "tok", 50, none⟩ 1 0 [missingHeaderInput]).err
        = some .keyError ∧
      (streamListing ⟨some "tok", 50, none⟩ 1 0 [missingHeaderInput]).sleeps = [] := by
  decide

/-- C1 (amended): a listing response missing a rate-limit header makes the
cycle fail with an uncaught `KeyError`, and a well-formed response whose
`X-Ratelimit-Reset` value does not parse as a float makes it fail with an
uncaught `ValueError`; either uncaught exception stops the stream at once —
no backoff sleep, the exception reaching the consumer.  Only
`StreamException` failures are caught at the cycle boundary and converted
into a backoff sleep plus retry: a failed token exchange, a transport-level
failure, and a non-success listing status. -/
theorem C1_error_handling (s : StreamState) (cache : List String) (conc extra : ℚ)
    (inp : CycleInput) :
    (¬(s.expires = -1 ∨ inp.now > s.expires) → inp.transportFail = false →
      inp.listing.ok = true →
      (inp.listing.headerUsed = none ∨ inp.listing.headerRemaining = none ∨
        inp.listing.headerReset = none) →
      (runCycle s cache conc extra inp).outcome = .uncaught .keyError ∧
        ∀ (b : ℚ) (rest : List CycleInput),
          (streamRun s cache b conc extra (inp :: rest)).err = some .keyError ∧
            (streamRun s cache b conc extra (inp :: rest)).sleeps = []) ∧
      (∀ us rs ss, ¬(s.expires = -1 ∨ inp.now > s.expires) →
        inp.transportFail = false → inp.listing.ok = true →
        inp.listing.headerUsed = some us → inp.listing.headerRemaining = some rs →
        inp.listing.headerReset = some ss → parseFloat ss = none →
        inp.listing.children.all (fun c => (parseBase36 c.data.id).isSome) = true →
        (runCycle s cache conc extra inp).outcome = .uncaught .valueError) ∧
      (¬(s.expires = -1 ∨ inp.now > s.expires) →
        (inp.transportFail = true ∨ (inp.transportFail = false ∧ inp.listing.ok = false)) →
        (runCycle s cache conc extra inp).outcome = .caught ∧
          ∀ (b : ℚ) (rest : List CycleInput),
            (streamRun s cache b conc extra (inp :: rest)).sleeps
                = .backoffSleep b :: (streamRun s cache
                    (min (b * BACKOFF_INCREASE_FACTOR) BACKOFF_MAX) conc extra rest).sleeps ∧
              (streamRun s cache b conc extra (inp :: rest)).err
                = (streamRun s cache
                    (min (b * BACKOFF_INCREASE_FACTOR) BACKOFF_MAX) conc extra rest).err) ∧
      ((s.expires = -1 ∨ inp.now > s.expires) →
        (inp.tokenResp.ok = false ∨ inp.tokenResp.hasError = true) →
        (runCycle s cache conc extra inp).outcome = .caught) := by
  refine ⟨?_, ?_, ?_, ?_⟩
  · intro hfresh htr hok hmiss
    have houtcome : (runCycle s cache conc extra inp).outcome = .uncaught .keyError := by
      rcases hU : inp.listing.headerUsed with _ | u <;>
        rcases hR : inp.listing.headerRemaining with _ | r <;>
        rcases hS : inp.listing.headerReset with _ | t <;>
        simp_all [runCycle, checkTokenExpiry_fresh hfresh, htr, hok]
    refine ⟨houtcome, fun b rest => ?_⟩
    constructor <;> simp [streamRun, houtcome]
  · intro us rs ss hfresh htr hok hU hR hS hbadfloat hids
    rw [runCycle_ok hfresh htr hok hU hR hS]
    have hsort : sortChildrenE inp.listing.children
        = .ok (stableSort childLe inp.listing.children) := by
      simp [sortChildrenE, hids]
    simp [processChildren, hsort, hbadfloat]
  · intro hfresh hcase
    have hcycle : runCycle s cache conc extra inp = ⟨s, cache, [], .caught⟩ := by
      rcases hcase with htr | ⟨htr, hok⟩
      · exact runCycle_caught_transport hfresh htr
      · exact runCycle_caught_notok hfresh htr hok
    refine ⟨by rw [hcycle], fun b rest => ?_⟩
    constructor <;> simp [streamRun, hcycle]
  · intro hstale hbadtok
    have : (updateAccessToken s inp.tokenResp inp.now).2 = some .streamException := by
      rcases hbadtok with h | h
      · simp [updateAccessToken, h]
      · rcases hok : inp.tokenResp.ok with _ | _ <;> simp [updateAccessToken, h, hok]
    simp only [runCycle, checkTokenExpiry, if_pos hstale]
    rcases hupd : updateAccessToken s inp.tokenResp inp.now with ⟨s', e⟩
    rw [hupd] at this
    simp only at this
    rw [this]

/-- Witness for C1 (amended), at the concrete missing-header input: the cycle
fails with the uncaught `KeyError` and the run terminates with no sleep. -/
theorem C1_witness :
    (runCycle ⟨some "tok", 50, none⟩ [] 1 0 missingHeaderInput).outcome
        = .uncaught .keyError ∧
      (streamRun ⟨some "tok", 50, none⟩ [] 2 1 0 [missingHeaderInput]).err
        = some .keyError ∧
      (streamRun ⟨some "tok", 50, none⟩ [] 2 1 0 [missingHeaderInput]).sleeps = [] := by
  have h := (C1_error_handling ⟨some "tok", 50, none⟩ [] 1 0 missingHeaderInput).1
    (by norm_num [missingHeaderInput]) rfl rfl (Or.inl rfl)
  exact ⟨h.1, (h.2 2 []).1, (h.2 2 []).2⟩

/-! ### C3: LRU deduplication lemmas -/

/-- The fullnames strictly more recently used than `f` in a cache (the prefix
of the most-recently-used-first key list before `f`). -/
def aboveNames (f : String) (cache : List String) : List String :=
  cache.takeWhile (fun x => decide (x ≠ f))

/-- Erasing an element satisfying `p` cannot add elements to the
`takeWhile p` prefix. -/
theorem mem_takeWhile_erase {p : String → Bool} {g : String} (hg : p g = true) :
    ∀ {l : List String} {x : String}, x ∈ (l.erase g).takeWhile p → x ∈ l.takeWhile p
  | [], x, h => by simp [List.takeWhile] at h
  | y :: ys, x, h => by
      by_cases hyg : y = g
      · subst hyg
        rw [List.erase_cons_head] at h
        rw [List.takeWhile_cons_of_pos hg]
        exact List.mem_cons_of_mem _ h
      · rw [List.erase_cons, if_neg (by simpa using hyg)] at h
        by_cases hpy : p y = true
        · rw [List.takeWhile_cons_of_pos hpy] at h ⊢
          rcases List.mem_cons.mp h with rfl | h
          · exact List.mem_cons_self _ _
          · exact List.mem_cons_of_mem _ (mem_takeWhile_erase hg h)
        · rw [List.takeWhile_cons_of_neg hpy] at h
          cases h

/-- Truncating a list cannot add elements to the `takeWhile p` prefix. -/
theorem mem_takeWhile_take {p : String → Bool} :
    ∀ {n : Nat} {l : List String} {x : String}, x ∈ (l.take n).takeWhile p →
      x ∈ l.takeWhile p
  | 0, _, x, h => by simp [List.takeWhile] at h
  | _ + 1, [], x, h => by simp [List.takeWhile] at h
  | n + 1, y :: ys, x, h => by
      rw [List.take_succ_cons] at h
      by_cases hpy : p y = true
      · rw [List.takeWhile_cons_of_pos hpy] at h ⊢
        rcases List.mem_cons.mp h with rfl | h
        · exact List.mem_cons_self _ _
        · exact List.mem_cons_of_mem _ (mem_takeWhile_take h)
      · rw [List.takeWhile_cons_of_neg hpy] at h
        cases h

/-- `takeWhile` jumps over a prefix on which `p` holds everywhere. -/
theorem takeWhile_append_all {p : String → Bool} :
    ∀ {l₁ l₂ : List String}, (∀ x ∈ l₁, p x = true) →
      (l₁ ++ l₂).takeWhile p = l₁ ++ l₂.takeWhile p
  | [], l₂, _ => rfl
  | y :: l₁, l₂, h => by
      rw [List.cons_append, List.takeWhile_cons_of_pos (h y (List.mem_cons_self _ _)),
        takeWhile_append_all (fun x hx => h x (List.mem_cons_of_mem _ hx)), List.cons_append]

/-- Touching preserves distinctness of the cached keys. -/
theorem lruTouch_nodup {cap : Nat} {cache : List String} (k : String)
    (h : cache.Nodup) : (lruTouch cap cache k).Nodup := by
  rw [lruTouch]
  by_cases hk : k ∈ cache
  · rw [if_pos hk, List.nodup_cons]
    exact ⟨fun hmem => ((h.mem_erase_iff).mp hmem).1 rfl, h.erase k⟩
  · rw [if_neg hk]
    exact (List.take_sublist _ _).nodup (List.nodup_cons.mpr ⟨hk, h⟩)

/-- Touching keeps the cache within its capacity. -/
theorem lruTouch_length_le {cap : Nat} {cache : List String} (k : String)
    (h : cache.length ≤ cap) : (lruTouch cap cache k).length ≤ cap := by
  rw [lruTouch]
  by_cases hk : k ∈ cache
  · rw [if_pos hk]
    have h1 : 0 < cache.length := List.length_pos.mpr (List.ne_nil_of_mem hk)
    have h2 := List.length_erase_of_mem hk
    simp only [List.length_cons, h2]
    omega
  · rw [if_neg hk, List.length_take]
    omega

/-- The cache stays distinct and within capacity along any processing. -/
theorem cacheAfter_nodup_length (cap : Nat) :
    ∀ (l : List String) (cache : List String), cache.Nodup → cache.length ≤ cap →
      (cacheAfter cap cache l).Nodup ∧ (cacheAfter cap cache l).length ≤ cap
  | [], _, hnd, hlen => ⟨hnd, hlen⟩
  | k :: l, cache, hnd, hlen =>
      cacheAfter_nodup_length cap l (lruTouch cap cache k) (lruTouch_nodup k hnd)
        (lruTouch_length_le k hlen)

/-- Core counting argument: while `f` sits in the cache, every key that can
move above it contributes one distinct non-`f` name, and `f` can only be
evicted from the last slot of a full cache; so if `f` is gone after
processing `l`, the processed names contain at least `cap` distinct names
different from `f` (counting also the fullnames initially above `f`). -/
theorem lru_evict_distinct {cap : Nat} :
    ∀ (l : List String) (c : List String) (f : String),
      f ∈ c → c.Nodup → c.length ≤ cap →
      f ∉ List.foldl (lruTouch cap) c l →
      cap ≤ ((aboveNames f c).toFinset
        ∪ (l.filter (fun x => decide (x ≠ f))).toFinset).card
  | [], c, f, hf, _, _, hnot => absurd hf hnot
  | g :: l, c, f, hf, hnd, hlen, hnot => by
      rw [List.foldl_cons] at hnot
      by_cases hgf : g = f
      · subst hgf
        have hc' : lruTouch cap c g = g :: c.erase g := by rw [lruTouch, if_pos hf]
        rw [hc'] at hnot
        have hnd' : (g :: c.erase g).Nodup := by
          rw [List.nodup_cons]
          exact ⟨fun hmem => ((hnd.mem_erase_iff).mp hmem).1 rfl, hnd.erase g⟩
        have hlen' : (g :: c.erase g).length ≤ cap := by
          have h1 : 0 < c.length := List.length_pos.mpr (List.ne_nil_of_mem hf)
          have h2 := List.length_erase_of_mem hf
          simp only [List.length_cons, h2]
          omega
        have ih := lru_evict_distinct l (g :: c.erase g) g (List.mem_cons_self g _)
          hnd' hlen' hnot
        have habove : aboveNames g (g :: c.erase g) = [] :=
          List.takeWhile_cons_of_neg (by simp)
        rw [habove] at ih
        simp only [List.toFinset_nil, Finset.empty_union] at ih
        rw [List.filter_cons_of_neg (by simp)]
        exact le_trans ih (Finset.card_le_card Finset.subset_union_right)
      · have hpg : (fun x => decide (x ≠ f)) g = true := by simp [hgf]
        have hfg : f ≠ g := fun h => hgf h.symm
        rw [List.filter_cons_of_pos (p := fun x => decide (x ≠ f)) hpg, List.toFinset_cons]
        by_cases hgc : g ∈ c
        · -- refresh of an existing key: it moves above `f`
          have hc' : lruTouch cap c g = g :: c.erase g := by rw [lruTouch, if_pos hgc]
          rw [hc'] at hnot
          have hf' : f ∈ g :: c.erase g :=
            List.mem_cons_of_mem _ ((hnd.mem_erase_iff).mpr ⟨hfg, hf⟩)
          have hnd' : (g :: c.erase g).Nodup := by
            rw [List.nodup_cons]
            exact ⟨fun hmem => ((hnd.mem_erase_iff).mp hmem).1 rfl, hnd.erase g⟩
          have hlen' : (g :: c.erase g).length ≤ cap := by
            have h1 : 0 < c.length := List.length_pos.mpr (List.ne_nil_of_mem hgc)
            have h2 := List.length_erase_of_mem hgc
            simp only [List.length_cons, h2]
            omega
          have ih := lru_evict_distinct l (g :: c.erase g) f hf' hnd' hlen' hnot
          refine le_trans ih (Finset.card_le_card ?_)
          intro x hx
          rcases Finset.mem_union.mp hx with hx | hx
          · rw [List.mem_toFinset] at hx
            rw [aboveNames, List.takeWhile_cons_of_pos (p := fun x => decide (x ≠ f)) hpg]
              at hx
            rcases List.mem_cons.mp hx with rfl | hx
            · exact Finset.mem_union_right _ (Finset.mem_insert_self _ _)
            · exact Finset.mem_union_left _
                (List.mem_toFinset.mpr
                  (mem_takeWhile_erase (p := fun x => decide (x ≠ f)) hpg hx))
          · exact Finset.mem_union_right _ (Finset.mem_insert_of_mem hx)
        · -- insertion of a new key
          have hc' : lruTouch cap c g = (g :: c).take cap := by rw [lruTouch, if_neg hgc]
          by_cases hfin : f ∈ (g :: c).take cap
          · -- `f` survives the insertion
            rw [hc'] at hnot
            have hnd' : ((g :: c).take cap).Nodup :=
              (List.take_sublist _ _).nodup (List.nodup_cons.mpr ⟨hgc, hnd⟩)
            have hlen' : ((g :: c).take cap).length ≤ cap := by
              rw [List.length_take]
              omega
            have ih := lru_evict_distinct l ((g :: c).take cap) f hfin hnd' hlen' hnot
            refine le_trans ih (Finset.card_le_card ?_)
            intro x hx
            rcases Finset.mem_union.mp hx with hx | hx
            · rw [List.mem_toFinset] at hx
              have hx' := mem_takeWhile_take (p := fun x => decide (x ≠ f)) hx
              rw [List.takeWhile_cons_of_pos (p := fun x => decide (x ≠ f)) hpg] at hx'
              rcases List.mem_cons.mp hx' with rfl | hx'
              · exact Finset.mem_union_right _ (Finset.mem_insert_self _ _)
              · exact Finset.mem_union_left _ (List.mem_toFinset.mpr hx')
            · exact Finset.mem_union_right _ (Finset.mem_insert_of_mem hx)
          · -- `f` is evicted: the cache was full with `f` in the last slot
            rcases Nat.eq_zero_or_pos cap with hcap0 | hcap1
            · subst hcap0
              interval_cases hc : c.length
              · exact absurd hf (by simp [List.length_eq_zero.mp hc])
            obtain ⟨k, rfl⟩ : ∃ k, cap = k + 1 := ⟨cap - 1, by omega⟩
            have htake : (g :: c).take (k + 1) = g :: c.take k := List.take_succ_cons
            have hfnot : f ∉ c.take k := fun hmem => hfin (by
              rw [htake]
              exact List.mem_cons_of_mem _ hmem)
            have hclen : c.length = k + 1 := by
              by_contra hne
              have hle : c.length ≤ k := by omega
              rw [List.take_of_length_le hle] at hfnot
              exact hfnot hf
            have hne_nil : c ≠ [] := List.ne_nil_of_mem hf
            have hfdl : f ∉ c.dropLast := by
              rw [List.dropLast_eq_take, hclen]
              simpa using hfnot
            have hlast : c.getLast hne_nil = f := by
              have hsplit := List.dropLast_append_getLast hne_nil
              have hfmem : f ∈ c.dropLast ++ [c.getLast hne_nil] := by rw [hsplit]; exact hf
              rcases List.mem_append.mp hfmem with h | h
              · exact absurd h hfdl
              · exact (List.mem_singleton.mp h).symm
            have habove : aboveNames f c = c.dropLast := by
              have hall : ∀ x ∈ c.dropLast, (fun x => decide (x ≠ f)) x = true := by
                intro x hx
                simp only [decide_eq_true_eq]
                intro hxf
                exact hfdl (hxf ▸ hx)
              conv_lhs => rw [aboveNames, ← List.dropLast_append_getLast hne_nil]
              rw [takeWhile_append_all hall, hlast,
                List.takeWhile_cons_of_neg (by simp), List.append_nil]
            have hdlnodup : c.dropLast.Nodup := (List.dropLast_sublist c).nodup hnd
            have hcard : (aboveNames f c).toFinset.card = k := by
              rw [habove, List.toFinset_card_of_nodup hdlnodup, List.length_dropLast, hclen]
              omega
            have hgnot : g ∉ (aboveNames f c).toFinset := by
              rw [habove, List.mem_toFinset]
              intro hmem
              exact hgc ((List.dropLast_sublist c).subset hmem)
            have hsub : insert g (aboveNames f c).toFinset
                ⊆ (aboveNames f c).toFinset
                  ∪ insert g (l.filter (fun x => decide (x ≠ f))).toFinset := by
              intro x hx
              rcases Finset.mem_insert.mp hx with rfl | hx
              · exact Finset.mem_union_right _ (Finset.mem_insert_self _ _)
              · exact Finset.mem_union_left _ hx
            calc k + 1 = (insert g (aboveNames f c).toFinset).card := by
                  rw [Finset.card_insert_of_not_mem hgnot, hcard]
              _ ≤ _ := Finset.card_le_card hsub

/-- The loop's emissions and cache agree with the flat fullname-level model:
the emitted fullnames are `emittedFlat` of the sorted fullnames, and the
resulting cache is `cacheAfter` of them. -/
theorem processLoop_flat :
    ∀ (l : List Child) (total count : Nat) (cache : List String) (before : Option String),
      (processLoop total count cache before l).1.map (·.name)
          = emittedFlat LRU_CACHE_SIZE cache (l.map (·.data.name)) ∧
        (processLoop total count cache before l).2.1
          = cacheAfter LRU_CACHE_SIZE cache (l.map (·.data.name))
  | [], _, _, cache, before => ⟨rfl, rfl⟩
  | child :: rest, total, count, cache, before => by
      have ih := processLoop_flat rest total (count + 1)
        (lruTouch LRU_CACHE_SIZE cache child.data.name)
        (if count ≠ total - 1 then some child.data.name else before)
      rw [processLoop_cons, List.map_cons]
      constructor
      · show ((if child.data.name ∈ cache then [] else [child.data])
            ++ (processLoop total (count + 1) _ _ rest).1).map (·.name) = _
        rw [List.map_append, ih.1, emittedFlat]
        by_cases hmem : child.data.name ∈ cache
        · rw [if_pos hmem, if_pos hmem]
          rfl
        · rw [if_neg hmem, if_neg hmem]
          rfl
      · show (processLoop total (count + 1) _ _ rest).2.1 = _
        rw [ih.2]
        rfl

/-- C3 (amended): an item is emitted only if its fullname is absent from the
LRU cache, every processed item's fullname is unconditionally recorded in the
cache as most-recently-used (refreshing its recency), and — in the flat
fullname-level model `emittedFlat`/`cacheAfter` that the batch loop provably
implements — a fullname emitted twice (absent from the cache at two
processing points) must have at least 200 (`LRU_CACHE_SIZE`) distinct other
fullnames PROCESSED strictly between the two emissions.  (The window bound
holds for processed fullnames, not emitted ones: suppressed duplicates
refresh recency without being emitted.) -/
theorem C3_dedup_window :
    (∀ (p₁ p₂ : List String) (f : String),
        f ∉ cacheAfter LRU_CACHE_SIZE [] p₁ →
        f ∉ cacheAfter LRU_CACHE_SIZE [] (p₁ ++ f :: p₂) →
        LRU_CACHE_SIZE ≤ (p₂.filter (fun x => decide (x ≠ f))).toFinset.card) ∧
      (∀ (cache : List String) (before : Option String) (children : List Child)
          (em : List ChildData) (c' : List String) (b' : Option String) (sc : List Child),
        sortChildrenE children = .ok sc →
        processChildren cache before children = .ok (em, c', b') →
        em.map (·.name) = emittedFlat LRU_CACHE_SIZE cache (sc.map (·.data.name)) ∧
          c' = cacheAfter LRU_CACHE_SIZE cache (sc.map (·.data.name))) ∧
      (∀ (cache : List String) (k : String),
        k ∈ lruTouch LRU_CACHE_SIZE cache k ∧
          (lruTouch LRU_CACHE_SIZE cache k).head? = some k) := by
  refine ⟨?_, ?_, ?_⟩
  · intro p₁ p₂ f h1 h2
    have hinv := cacheAfter_nodup_length LRU_CACHE_SIZE p₁ [] List.nodup_nil
      (Nat.zero_le _)
    have hc₁ : lruTouch LRU_CACHE_SIZE (cacheAfter LRU_CACHE_SIZE [] p₁) f
        = (f :: cacheAfter LRU_CACHE_SIZE [] p₁).take LRU_CACHE_SIZE := by
      rw [lruTouch, if_neg h1]
    have htake : (f :: cacheAfter LRU_CACHE_SIZE [] p₁).take LRU_CACHE_SIZE
        = f :: (cacheAfter LRU_CACHE_SIZE [] p₁).take 199 := by
      rw [show LRU_CACHE_SIZE = 199 + 1 from rfl, List.take_succ_cons]
    have hf₁ : f ∈ (f :: cacheAfter LRU_CACHE_SIZE [] p₁).take LRU_CACHE_SIZE := by
      rw [htake]
      exact List.mem_cons_self _ _
    have hnd₁ : ((f :: cacheAfter LRU_CACHE_SIZE [] p₁).take LRU_CACHE_SIZE).Nodup :=
      (List.take_sublist _ _).nodup (List.nodup_cons.mpr ⟨h1, hinv.1⟩)
    have hlen₁ : ((f :: cacheAfter LRU_CACHE_SIZE [] p₁).take LRU_CACHE_SIZE).length
        ≤ LRU_CACHE_SIZE := by
      rw [List.length_take]
      omega
    have h2' : f ∉ List.foldl (lruTouch LRU_CACHE_SIZE)
        ((f :: cacheAfter LRU_CACHE_SIZE [] p₁).take LRU_CACHE_SIZE) p₂ := by
      rw [cacheAfter, List.foldl_append, List.foldl_cons] at h2
      rw [← hc₁]
      exact h2
    have hcore := lru_evict_distinct p₂ _ f hf₁ hnd₁ hlen₁ h2'
    rw [htake] at hcore
    rw [aboveNames, List.takeWhile_cons_of_neg (by simp)] at hcore
    simpa using hcore
  · intro cache before children em c' b' sc hsort hrun
    rw [processChildren, hsort] at hrun
    simp only [Except.ok.injEq, Prod.mk.injEq] at hrun
    obtain ⟨hem, hcache, _⟩ := hrun
    have hflat := processLoop_flat sc children.length 0 cache before
    exact ⟨hem ▸ hflat.1, hcache ▸ hflat.2⟩
  · intro cache k
    constructor
    · rw [lruTouch]
      by_cases hk : k ∈ cache
      · rw [if_pos hk]
        exact List.mem_cons_self _ _
      · rw [if_neg hk, show LRU_CACHE_SIZE = 199 + 1 from rfl, List.take_succ_cons]
        exact List.mem_cons_self _ _
    · rw [lruTouch]
      by_cases hk : k ∈ cache
      · rw [if_pos hk]
        rfl
      · rw [if_neg hk, show LRU_CACHE_SIZE = 199 + 1 from rfl, List.take_succ_cons]
        rfl

/-! ### C3: concrete counterexample input -/

/-- One base-36 digit character. -/
def base36Char (n : Nat) : Char :=
  if n < 10 then Char.ofNat ('0'.toNat + n) else Char.ofNat ('a'.toNat + n - 10)

/-- A two-character base-36 id for `n` (valid for `n < 1296`). -/
def mkId (n : Nat) : String := String.mk [base36Char (n / 36 % 36), base36Char (n % 36)]

/-- A one-character fullname for `n`. -/
def mkName (n : Nat) : String := String.mk [Char.ofNat (256 + n)]

/-- A listing child with id `mkId n` and fullname `mkName n`. -/
def mkChild (n : Nat) : Child := ⟨"t3", ⟨mkId n, mkName n⟩⟩

/-- `Char.ofNat` round-trips through `toNat` on valid codepoints. -/
theorem char_toNat_ofNat (n : Nat) (hn : n.isValidChar) : (Char.ofNat n).toNat = n := by
  simp [Char.ofNat, hn, Char.ofNatAux, Char.toNat, UInt32.toNat, BitVec.toNat_ofNatLt]

/-- The generated fullnames are distinct for distinct indices (below the
surrogate range). -/
theorem mkName_inj {m n : Nat} (hm : m < 55040) (hn : n < 55040)
    (h : mkName m = mkName n) : m = n := by
  have hchars : ([Char.ofNat (256 + m)] : List Char) = [Char.ofNat (256 + n)] :=
    congrArg String.data h
  have hchar : Char.ofNat (256 + m) = Char.ofNat (256 + n) := by
    injection hchars with h1 _
  have hm' : (256 + m).isValidChar := Or.inl (by omega)
  have hn' : (256 + n).isValidChar := Or.inl (by omega)
  have := congrArg Char.toNat hchar
  rw [char_toNat_ofNat _ hm', char_toNat_ofNat _ hn'] at this
  omega

/-- Base-36 digits round-trip. -/
theorem digit36_base36Char : ∀ d, d < 36 → digit36 (base36Char d) = some d := by decide

/-- The generated two-character id parses back to its index. -/
theorem parseBase36_mkId (n : Nat) (hn : n < 1296) : parseBase36 (mkId n) = some n := by
  have e1 := digit36_base36Char (n / 36 % 36) (Nat.mod_lt _ (by norm_num))
  have e2 := digit36_base36Char (n % 36) (Nat.mod_lt _ (by norm_num))
  simp only [parseBase36, mkId, List.isEmpty_cons, Bool.false_eq_true, if_false,
    List.foldl_cons, List.foldl_nil, Option.bind_eq_bind, Option.some_bind, e1, e2]
  simp only [Option.map_some', Option.some_bind]
  congr 1
  omega

/-- The generated children always carry a parsable id. -/
theorem mkChild_id_isSome (n : Nat) (hn : n < 1296) :
    (parseBase36 (mkChild n).data.id).isSome = true := by
  rw [show (mkChild n).data.id = mkId n from rfl, parseBase36_mkId n hn]
  rfl

/-- The generated children sort by their index. -/
theorem childLe_mkChild {m n : Nat} (hm : m < 1296) (hn : n < 1296) (h : m ≤ n) :
    childLe (mkChild m) (mkChild n) = true := by
  simp only [childLe, show (mkChild m).data.id = mkId m from rfl,
    show (mkChild n).data.id = mkId n from rfl, parseBase36_mkId m hm,
    parseBase36_mkId n hn, Option.getD_some]
  exact decide_eq_true h

/-- The stable sort leaves an already-sorted list unchanged. -/
theorem stableSort_of_sorted {α : Type} (le : α → α → Bool) :
    ∀ l : List α, l.Pairwise (fun a b => le a b = true) → stableSort le l = l
  | [], _ => rfl
  | x :: xs, h => by
      rw [List.pairwise_cons] at h
      rw [stableSort, stableSort_of_sorted le xs h.2]
      cases xs with
      | nil => rfl
      | cons y ys => rw [insertSorted, if_pos (h.1 y (List.mem_cons_self y ys))]

/-- `processChildren` on a batch of parsable, already-sorted children. -/
theorem processChildren_ok {cache : List String} {before : Option String}
    {children : List Child}
    (hall : children.all (fun c => (parseBase36 c.data.id).isSome) = true)
    (hsorted : children.Pairwise (fun a b => childLe a b = true)) :
    processChildren cache before children
      = .ok ((processLoop children.length 0 cache before children).1,
          (processLoop children.length 0 cache before children).2.1,
          if children.length = 0 then none
          else (processLoop children.length 0 cache before children).2.2) := by
  rw [processChildren, sortChildrenE, if_pos hall, stableSort_of_sorted _ _ hsorted]

/-- Composing one successful batch with a successful remainder. -/
theorem runBatches_ok_cons {cache : List String} {before : Option String}
    {b : List Child} {rest : List (List Child)} {em em₂ : List ChildData}
    {c' c'' : List String} {b' b'' : Option String}
    (h1 : processChildren cache before b = .ok (em, c', b'))
    (h2 : runBatches c' b' rest = .ok (em₂, c'', b'')) :
    runBatches cache before (b :: rest) = .ok (em ++ em₂, c'', b'') := by
  simp only [runBatches, h1, h2]

/-- A fresh distinct key sequence that fits in the remaining capacity fills
the cache front in reverse processing order. -/
theorem cacheAfter_fresh (cap : Nat) :
    ∀ (names cache : List String), names.Nodup → (∀ x ∈ names, x ∉ cache) →
      cache.length + names.length ≤ cap →
      cacheAfter cap cache names = names.reverse ++ cache
  | [], cache, _, _, _ => by simp [cacheAfter]
  | n :: rest, cache, hnd, hfresh, hlen => by
      rw [List.nodup_cons] at hnd
      simp only [List.length_cons] at hlen
      have htouch : lruTouch cap cache n = n :: cache := by
        rw [lruTouch, if_neg (hfresh n (List.mem_cons_self _ _)),
          List.take_of_length_le (by simp only [List.length_cons]; omega)]
      have ih := cacheAfter_fresh cap rest (n :: cache) hnd.2
        (fun x hx hmem => by
          rcases List.mem_cons.mp hmem with rfl | hc
          · exact hnd.1 hx
          · exact hfresh x (List.mem_cons_of_mem _ hx) hc)
        (by simp only [List.length_cons]; omega)
      rw [show cacheAfter cap cache (n :: rest)
          = cacheAfter cap (lruTouch cap cache n) rest from rfl, htouch, ih,
        List.reverse_cons, List.append_assoc, List.singleton_append]

/-- A fresh distinct key sequence is emitted in full. -/
theorem emittedFlat_fresh (cap : Nat) :
    ∀ (names cache : List String), names.Nodup → (∀ x ∈ names, x ∉ cache) →
      emittedFlat cap cache names = names
  | [], _, _, _ => rfl
  | n :: rest, cache, hnd, hfresh => by
      rw [List.nodup_cons] at hnd
      rw [emittedFlat, if_neg (hfresh n (List.mem_cons_self _ _)),
        emittedFlat_fresh cap rest (lruTouch cap cache n) hnd.2
          (fun x hx hmem => by
            rcases mem_lruTouch hmem with rfl | hc
            · exact hnd.1 hx
            · exact hfresh x (List.mem_cons_of_mem _ hx) hc),
        List.singleton_append]

/-- Touching a cached key keeps every cached key cached. -/
theorem mem_lruTouch_of_mem {cap : Nat} {c : List String} {k x : String}
    (hk : k ∈ c) (hx : x ∈ c) : x ∈ lruTouch cap c k := by
  rw [lruTouch, if_pos hk]
  by_cases hxk : x = k
  · exact hxk ▸ List.mem_cons_self _ _
  · exact List.mem_cons_of_mem _ ((List.mem_erase_of_ne hxk).mpr hx)

/-- A key sequence that is entirely cached is emitted nowhere: every touch is
a suppressed duplicate. -/
theorem emittedFlat_refresh (cap : Nat) :
    ∀ (names cache : List String), (∀ x ∈ names, x ∈ cache) →
      emittedFlat cap cache names = []
  | [], _, _ => rfl
  | n :: rest, cache, hmem => by
      have hn := hmem n (List.mem_cons_self _ _)
      rw [emittedFlat, if_pos hn,
        emittedFlat_refresh cap rest (lruTouch cap cache n)
          (fun x hx => mem_lruTouch_of_mem hn (hmem x (List.mem_cons_of_mem _ hx))),
        List.nil_append]

/-- Filtering after an erase, for distinct keys. -/
theorem erase_filter_notMem (n : String) (rest : List String) :
    ∀ cache : List String, cache.Nodup →
      (cache.erase n).filter (fun x => decide (x ∉ rest))
        = cache.filter (fun x => decide (x ∉ n :: rest))
  | [], _ => rfl
  | y :: ys, hnd => by
      rw [List.nodup_cons] at hnd
      by_cases hyn : y = n
      · subst hyn
        rw [List.erase_cons_head, List.filter_cons_of_neg (by simp)]
        refine List.filter_congr fun x hx => ?_
        have hxy : x ≠ y := fun h => hnd.1 (h ▸ hx)
        simp [List.mem_cons, hxy]
      · rw [List.erase_cons, if_neg (by simpa using hyn)]
        by_cases hyr : y ∈ rest
        · rw [List.filter_cons_of_neg (by simp [hyr]),
            List.filter_cons_of_neg (by simp [hyr]),
            erase_filter_notMem n rest ys hnd.2]
        · rw [List.filter_cons_of_pos (by simp [hyr]),
            List.filter_cons_of_pos (by simp [hyr, hyn]),
            erase_filter_notMem n rest ys hnd.2]

/-- A distinct key sequence that is entirely cached moves to the cache front
in reverse processing order; the untouched keys keep their relative order
behind it. -/
theorem cacheAfter_refresh (cap : Nat) :
    ∀ (names cache : List String), names.Nodup → cache.Nodup →
      (∀ x ∈ names, x ∈ cache) →
      cacheAfter cap cache names
        = names.reverse ++ cache.filter (fun x => decide (x ∉ names))
  | [], cache, _, _, _ => by simp [cacheAfter]
  | n :: rest, cache, hnd, hcnd, hmem => by
      rw [List.nodup_cons] at hnd
      have hn := hmem n (List.mem_cons_self _ _)
      have htouch : lruTouch cap cache n = n :: cache.erase n := by
        rw [lruTouch, if_pos hn]
      have hnd' : (n :: cache.erase n).Nodup := by
        rw [List.nodup_cons]
        exact ⟨fun hc => ((hcnd.mem_erase_iff).mp hc).1 rfl, hcnd.erase n⟩
      have ih := cacheAfter_refresh cap rest (n :: cache.erase n) hnd.2 hnd'
        (fun x hx => by
          by_cases hxn : x = n
          · exact hxn ▸ List.mem_cons_self _ _
          · exact List.mem_cons_of_mem _
              ((hcnd.mem_erase_iff).mpr ⟨hxn, hmem x (List.mem_cons_of_mem _ hx)⟩))
      rw [show cacheAfter cap cache (n :: rest)
          = cacheAfter cap (lruTouch cap cache n) rest from rfl, htouch, ih,
        List.filter_cons_of_pos (by simpa using hnd.1),
        erase_filter_notMem n rest cache hcnd,
        List.reverse_cons, List.append_assoc, List.singleton_append]

/-- The fullnames of the first hundred fresh items. -/
def cexN1 : List String := (List.range 100).map (fun i => mkName (100 + i))

/-- The fullnames of the next ninety-nine fresh items. -/
def cexN2 : List String := (List.range 99).map (fun i => mkName (200 + i))

/-- The flat fullname sequence processed before the first emission of
`mkName 1000` in the counterexample batches. -/
def cexP1 : List String := cexN1 ++ cexN2

/-- The flat fullname sequence processed between the two emissions of
`mkName 1000`: the 199 suppressed duplicates plus the one fresh fullname. -/
def cexP2 : List String := cexP1 ++ [mkName 999]

/-- Distinctness of a generated fullname block. -/
theorem nodup_mkName_map (a c : Nat) (h : a + c ≤ 55040) :
    ((List.range c).map (fun i => mkName (a + i))).Nodup := by
  have hp : List.Pairwise (fun i j => mkName (a + i) ≠ mkName (a + j)) (List.range c) := by
    refine List.Pairwise.imp_of_mem ?_ (List.pairwise_lt_range c)
    intro i j hi hj hij hEq
    rw [List.mem_range] at hi hj
    have := mkName_inj (by omega) (by omega) hEq
    omega
  exact List.pairwise_map.mpr hp

/-- Membership of a generated fullname in a generated block. -/
theorem mkName_mem_map_iff {k a c : Nat} (hk : k < 55040) (hac : a + c ≤ 55040) :
    (mkName k ∈ (List.range c).map (fun i => mkName (a + i))) ↔ (a ≤ k ∧ k < a + c) := by
  simp only [List.mem_map, List.mem_range]
  constructor
  · rintro ⟨i, hi, he⟩
    have := mkName_inj (by omega) hk he
    omega
  · rintro ⟨h1, h2⟩
    exact ⟨k - a, by omega, by congr 1; omega⟩

/-- The 199 pre-`mkName 1000` fullnames are distinct. -/
theorem cexP1_nodup : cexP1.Nodup := by
  rw [cexP1, List.nodup_append]
  refine ⟨by simpa using nodup_mkName_map 100 100 (by norm_num),
    by simpa using nodup_mkName_map 200 99 (by norm_num), ?_⟩
  intro x hx1 hx2
  simp only [cexN1, List.mem_map, List.mem_range] at hx1
  simp only [cexN2, List.mem_map, List.mem_range] at hx2
  obtain ⟨i, hi, rfl⟩ := hx1
  obtain ⟨j, hj, he⟩ := hx2
  have := mkName_inj (by omega) (by omega) he
  omega

/-- `mkName 1000` is not among the 199 earlier fullnames. -/
theorem cex_f_notMem_P1 : mkName 1000 ∉ cexP1 := by
  rw [cexP1, List.mem_append]
  rintro (h | h)
  · have := (mkName_mem_map_iff (k := 1000) (a := 100) (c := 100) (by norm_num)
      (by norm_num)).mp (by simpa [cexN1] using h)
    omega
  · have := (mkName_mem_map_iff (k := 1000) (a := 200) (c := 99) (by norm_num)
      (by norm_num)).mp (by simpa [cexN2] using h)
    omega

/-- `mkName 999` is not among the 199 earlier fullnames. -/
theorem cex_g_notMem_P1 : mkName 999 ∉ cexP1 := by
  rw [cexP1, List.mem_append]
  rintro (h | h)
  · have := (mkName_mem_map_iff (k := 999) (a := 100) (c := 100) (by norm_num)
      (by norm_num)).mp (by simpa [cexN1] using h)
    omega
  · have := (mkName_mem_map_iff (k := 999) (a := 200) (c := 99) (by norm_num)
      (by norm_num)).mp (by simpa [cexN2] using h)
    omega

/-- The one fresh fullname differs from the re-emitted one. -/
theorem cex_g_ne_f : mkName 999 ≠ mkName 1000 := by
  intro h
  have := mkName_inj (by norm_num) (by norm_num) h
  omega

/-- Length of the earlier-fullnames sequence. -/
theorem cexP1_length : cexP1.length = 199 := by
  simp [cexP1, cexN1, cexN2]

/-- Processing a concatenation, cache view. -/
theorem cacheAfter_append (cap : Nat) (c : List String) (l₁ l₂ : List String) :
    cacheAfter cap c (l₁ ++ l₂) = cacheAfter cap (cacheAfter cap c l₁) l₂ :=
  List.foldl_append _ _ _ _

/-- Processing one more fullname, cache view. -/
theorem cacheAfter_cons (cap : Nat) (c : List String) (n : String) (l : List String) :
    cacheAfter cap c (n :: l) = cacheAfter cap (lruTouch cap c n) l := rfl

/-- Processing a concatenation, emission view. -/
theorem emittedFlat_append (cap : Nat) :
    ∀ (l₁ l₂ c : List String),
      emittedFlat cap c (l₁ ++ l₂)
        = emittedFlat cap c l₁ ++ emittedFlat cap (cacheAfter cap c l₁) l₂
  | [], _, _ => rfl
  | n :: l₁, l₂, c => by
      rw [List.cons_append, emittedFlat, emittedFlat,
        emittedFlat_append cap l₁ l₂ (lruTouch cap c n), cacheAfter_cons,
        List.append_assoc]

/-- The cache after the 199 fresh fullnames. -/
theorem cexC1 : cacheAfter LRU_CACHE_SIZE [] cexP1 = cexP1.reverse := by
  rw [cacheAfter_fresh LRU_CACHE_SIZE cexP1 [] cexP1_nodup (by simp)
    (by simp [cexP1_length, LRU_CACHE_SIZE]), List.append_nil]

/-- First emission point: `mkName 1000` is absent from the cache after the
199 fresh fullnames. -/
theorem cex_h1 : mkName 1000 ∉ cacheAfter LRU_CACHE_SIZE [] cexP1 := by
  rw [cexC1, List.mem_reverse]
  exact cex_f_notMem_P1

/-- Touching the fresh `mkName 1000` on the full-but-one cache. -/
theorem cexC2 : lruTouch LRU_CACHE_SIZE cexP1.reverse (mkName 1000)
    = mkName 1000 :: cexP1.reverse := by
  rw [lruTouch, if_neg (by rw [List.mem_reverse]; exact cex_f_notMem_P1),
    List.take_of_length_le (by simp [cexP1_length, LRU_CACHE_SIZE])]

/-- Refreshing all 199 earlier fullnames pushes `mkName 1000` to the
least-recently-used slot. -/
theorem cexC3 : cacheAfter LRU_CACHE_SIZE (mkName 1000 :: cexP1.reverse) cexP1
    = cexP1.reverse ++ [mkName 1000] := by
  rw [cacheAfter_refresh LRU_CACHE_SIZE cexP1 (mkName 1000 :: cexP1.reverse) cexP1_nodup
    (List.nodup_cons.mpr ⟨by rw [List.mem_reverse]; exact cex_f_notMem_P1,
      List.nodup_reverse.mpr cexP1_nodup⟩)
    (fun x hx => List.mem_cons_of_mem _ (List.mem_reverse.mpr hx))]
  rw [List.filter_cons_of_pos (by simpa using cex_f_notMem_P1)]
  have hnil : cexP1.reverse.filter (fun x => decide (x ∉ cexP1)) = [] :=
    List.filter_eq_nil_iff.mpr (fun a ha => by simp [List.mem_reverse.mp ha])
  rw [hnil]

/-- Second emission point: `mkName 1000` is absent again after the 199
refreshes and the one fresh fullname. -/
theorem cex_h2 :
    mkName 1000 ∉ cacheAfter LRU_CACHE_SIZE [] (cexP1 ++ mkName 1000 :: cexP2) := by
  rw [cacheAfter_append, cacheAfter_cons, cexC1, cexC2,
    show cexP2 = cexP1 ++ [mkName 999] from rfl, cacheAfter_append, cexC3,
    cacheAfter_cons,
    show ∀ c, cacheAfter LRU_CACHE_SIZE c [] = c from fun _ => rfl]
  have hg : mkName 999 ∉ cexP1.reverse ++ [mkName 1000] := by
    rw [List.mem_append, List.mem_reverse, List.mem_singleton]
    rintro (h | h)
    · exact cex_g_notMem_P1 h
    · exact cex_g_ne_f h
  rw [lruTouch, if_neg hg, show LRU_CACHE_SIZE = 199 + 1 from rfl, List.take_succ_cons,
    show (199 : Nat) = cexP1.reverse.length from (by simp [cexP1_length]),
    List.take_left]
  rw [List.mem_cons, List.mem_reverse]
  rintro (h | h)
  · exact cex_g_ne_f h.symm
  · exact cex_f_notMem_P1 h

/-- Witness for C3 (amended), at the concrete trace of the counterexample
batches: the fullname `mkName 1000` is absent from the cache at both of its
processing points (hence emitted twice), and the theorem yields that at least
200 distinct other fullnames were processed in between. -/
theorem C3_witness :
    mkName 1000 ∉ cacheAfter LRU_CACHE_SIZE [] cexP1 ∧
      mkName 1000 ∉ cacheAfter LRU_CACHE_SIZE [] (cexP1 ++ mkName 1000 :: cexP2) ∧
      LRU_CACHE_SIZE ≤ (cexP2.filter (fun x => decide (x ≠ mkName 1000))).toFinset.card :=
  ⟨cex_h1, cex_h2, C3_dedup_window.1 cexP1 cexP2 (mkName 1000) cex_h1 cex_h2⟩

/-- The batch processor implements the flat fullname-level model: over any
run of parsable, pre-sorted batches, the emitted fullnames are `emittedFlat`
and the final cache is `cacheAfter` of the concatenated batch fullnames. -/
theorem runBatches_flat :
    ∀ (bs : List (List Child)) (cache : List String) (before : Option String),
      (∀ b ∈ bs, b.all (fun c => (parseBase36 c.data.id).isSome) = true ∧
        b.Pairwise (fun a b => childLe a b = true)) →
      ∃ em c' b', runBatches cache before bs = .ok (em, c', b') ∧
        em.map (·.name)
            = emittedFlat LRU_CACHE_SIZE cache
                ((bs.map (fun b => b.map (·.data.name))).flatten) ∧
          c' = cacheAfter LRU_CACHE_SIZE cache
                ((bs.map (fun b => b.map (·.data.name))).flatten)
  | [], cache, before, _ => ⟨[], cache, before, rfl, rfl, rfl⟩
  | b :: bs, cache, before, h => by
      have hb := h b (List.mem_cons_self _ _)
      have hpc : processChildren cache before b
          = .ok ((processLoop b.length 0 cache before b).1,
              (processLoop b.length 0 cache before b).2.1,
              if b.length = 0 then none
              else (processLoop b.length 0 cache before b).2.2) :=
        processChildren_ok hb.1 hb.2
      obtain ⟨em₂, c'', b'', hrun, hmap, hcache⟩ :=
        runBatches_flat bs (processLoop b.length 0 cache before b).2.1
          (if b.length = 0 then none else (processLoop b.length 0 cache before b).2.2)
          (fun x hx => h x (List.mem_cons_of_mem _ hx))
      have hflat := processLoop_flat b b.length 0 cache before
      refine ⟨(processLoop b.length 0 cache before b).1 ++ em₂, c'', b'',
        runBatches_ok_cons hpc hrun, ?_, ?_⟩
      · rw [List.map_cons, List.flatten_cons, emittedFlat_append, List.map_append,
          hflat.1, hmap, hflat.2]
      · rw [List.map_cons, List.flatten_cons, cacheAfter_append, hcache, hflat.2]

/-- The first counterexample batch: one hundred fresh items, ascending. -/
def cexB1 : List Child := (List.range 100).map (fun i => mkChild (100 + i))

/-- Ninety-nine further fresh items, ascending. -/
def cexB2a : List Child := (List.range 99).map (fun i => mkChild (200 + i))

/-- The second counterexample batch: ninety-nine fresh items and then the
item that will be re-emitted. -/
def cexB2 : List Child := cexB2a ++ [mkChild 1000]

/-- The final counterexample batch: one fresh item plus the re-emitted
item. -/
def cexB5 : List Child := [mkChild 999, mkChild 1000]

/-- Five batches (each within the 100-item page limit) under which the
stream re-emits the fullname `mkName 1000` after only one intervening
emission: batches 1-2 emit 199 fresh items and then `mkName 1000`, filling
the cache; batches 3-4 repeat the 199 items — every one a suppressed
duplicate that refreshes recency, emitting nothing — leaving `mkName 1000`
least recently used; batch 5 brings one fresh item (evicting `mkName 1000`)
together with `mkName 1000` itself, which is emitted again. -/
def cexBatches : List (List Child) := [cexB1, cexB2, cexB1, cexB2a, cexB5]

/-- The result of running the batch processor on `cexBatches` from a fresh
cache and cursor. -/
def cexRun : List ChildData × List String × Option String :=
  (runBatches [] none cexBatches).toOption.getD ([], [], none)

/-- Every id in the counterexample batches parses. -/
theorem cexBatches_all : ∀ b ∈ cexBatches,
    b.all (fun c => (parseBase36 c.data.id).isSome) = true := by
  have hmap : ∀ (a c : Nat), a + c ≤ 1296 →
      ((List.range c).map (fun i => mkChild (a + i))).all
        (fun c => (parseBase36 c.data.id).isSome) = true := by
    intro a c hac
    rw [List.all_eq_true]
    intro x hx
    simp only [List.mem_map, List.mem_range] at hx
    obtain ⟨i, hi, rfl⟩ := hx
    exact mkChild_id_isSome (a + i) (by omega)
  intro b hb
  simp only [cexBatches, List.mem_cons, List.not_mem_nil, or_false] at hb
  rcases hb with rfl | rfl | rfl | rfl | rfl
  · exact hmap 100 100 (by norm_num)
  · rw [cexB2, List.all_append]
    exact (Bool.and_eq_true _ _).mpr ⟨hmap 200 99 (by norm_num), by decide⟩
  · exact hmap 100 100 (by norm_num)
  · exact hmap 200 99 (by norm_num)
  · decide

/-- Every counterexample batch arrives already sorted by base-36 id. -/
theorem cexBatches_sorted : ∀ b ∈ cexBatches,
    b.Pairwise (fun a b => childLe a b = true) := by
  have hmap : ∀ (a c : Nat), a + c ≤ 1296 →
      ((List.range c).map (fun i => mkChild (a + i))).Pairwise
        (fun x y => childLe x y = true) := by
    intro a c hac
    refine List.pairwise_map.mpr ?_
    refine List.Pairwise.imp_of_mem ?_ (List.pairwise_lt_range c)
    intro i j hi hj hij
    rw [List.mem_range] at hi hj
    exact childLe_mkChild (by omega) (by omega) (by omega)
  intro b hb
  simp only [cexBatches, List.mem_cons, List.not_mem_nil, or_false] at hb
  rcases hb with rfl | rfl | rfl | rfl | rfl
  · exact hmap 100 100 (by norm_num)
  · rw [cexB2, List.pairwise_append]
    refine ⟨hmap 200 99 (by norm_num), List.pairwise_singleton _ _, ?_⟩
    intro x hx y hy
    simp only [cexB2a, List.mem_map, List.mem_range] at hx
    rw [List.mem_singleton] at hy
    obtain ⟨i, hi, rfl⟩ := hx
    subst hy
    exact childLe_mkChild (by omega) (by norm_num) (by omega)
  · exact hmap 100 100 (by norm_num)
  · exact hmap 200 99 (by norm_num)
  · refine List.pairwise_cons.mpr ⟨?_, List.pairwise_singleton _ _⟩
    intro y hy
    rw [List.mem_singleton] at hy
    subst hy
    decide

/-- Lengths of the fresh fullname blocks. -/
theorem cexN1_length : cexN1.length = 100 := by simp [cexN1]

/-- Length of the second fresh fullname block. -/
theorem cexN2_length : cexN2.length = 99 := by simp [cexN2]

/-- The fullnames emitted over the five counterexample batches: the 199
fresh fullnames, then `mkName 1000`, nothing at all for the two repeated
batches, and finally `mkName 999` followed by `mkName 1000` again. -/
theorem cexRun_names :
    cexRun.1.map (·.name) = cexP1 ++ [mkName 1000, mkName 999, mkName 1000] := by
  obtain ⟨em, c', b', hrun, hmap, _⟩ := runBatches_flat cexBatches [] none
    (fun b hb => ⟨cexBatches_all b hb, cexBatches_sorted b hb⟩)
  have hcex : cexRun.1 = em := by
    rw [cexRun, hrun]
    rfl
  rw [hcex, hmap]
  -- the concatenated batch fullnames
  have hn1 : cexB1.map (·.data.name) = cexN1 := by
    rw [cexB1, cexN1, List.map_map]
    rfl
  have hn2 : cexB2a.map (·.data.name) = cexN2 := by
    rw [cexB2a, cexN2, List.map_map]
    rfl
  have hb2 : cexB2.map (·.data.name) = cexN2 ++ [mkName 1000] := by
    rw [cexB2, List.map_append, hn2]
    rfl
  have hb5 : cexB5.map (·.data.name) = [mkName 999, mkName 1000] := rfl
  simp only [cexBatches, List.map_cons, List.map_nil, hn1, hb2, hn2, hb5,
    List.flatten_cons, List.flatten_nil, List.append_nil]
  -- name-set facts
  obtain ⟨hN1, hN2, hdisj⟩ :=
    List.nodup_append.mp (show (cexN1 ++ cexN2).Nodup from cexP1_nodup)
  have hfN1 : mkName 1000 ∉ cexN1 := fun h =>
    cex_f_notMem_P1 (by rw [cexP1, List.mem_append]; exact Or.inl h)
  have hfN2 : mkName 1000 ∉ cexN2 := fun h =>
    cex_f_notMem_P1 (by rw [cexP1, List.mem_append]; exact Or.inr h)
  have hgN1 : mkName 999 ∉ cexN1 := fun h =>
    cex_g_notMem_P1 (by rw [cexP1, List.mem_append]; exact Or.inl h)
  have hgN2 : mkName 999 ∉ cexN2 := fun h =>
    cex_g_notMem_P1 (by rw [cexP1, List.mem_append]; exact Or.inr h)
  -- batch 1: fresh
  have eA : emittedFlat LRU_CACHE_SIZE [] cexN1 = cexN1 :=
    emittedFlat_fresh _ cexN1 [] hN1 (by simp)
  have cA : cacheAfter LRU_CACHE_SIZE [] cexN1 = cexN1.reverse := by
    rw [cacheAfter_fresh _ cexN1 [] hN1 (by simp)
      (by simp [cexN1_length, LRU_CACHE_SIZE]), List.append_nil]
  -- batch 2: fresh
  have hN2f : (cexN2 ++ [mkName 1000]).Nodup := by
    rw [List.nodup_append]
    exact ⟨hN2, List.nodup_singleton _, fun x hx hx' =>
      hfN2 ((List.mem_singleton.mp hx') ▸ hx)⟩
  have hN2f_fresh : ∀ x ∈ cexN2 ++ [mkName 1000], x ∉ cexN1.reverse := by
    intro x hx hx'
    rw [List.mem_reverse] at hx'
    rcases List.mem_append.mp hx with hx | hx
    · exact hdisj hx' hx
    · exact hfN1 ((List.mem_singleton.mp hx) ▸ hx')
  have eB : emittedFlat LRU_CACHE_SIZE cexN1.reverse (cexN2 ++ [mkName 1000])
      = cexN2 ++ [mkName 1000] :=
    emittedFlat_fresh _ _ _ hN2f hN2f_fresh
  have cB : cacheAfter LRU_CACHE_SIZE cexN1.reverse (cexN2 ++ [mkName 1000])
      = (mkName 1000 :: cexN2.reverse) ++ cexN1.reverse := by
    rw [cacheAfter_fresh _ _ _ hN2f hN2f_fresh
      (by simp [cexN1_length, cexN2_length, LRU_CACHE_SIZE]),
      List.reverse_append, List.reverse_singleton, List.singleton_append]
  -- batch 3: all suppressed duplicates
  have hmemC : ∀ x ∈ cexN1, x ∈ (mkName 1000 :: cexN2.reverse) ++ cexN1.reverse :=
    fun x hx => List.mem_append.mpr (Or.inr (List.mem_reverse.mpr hx))
  have hcndB : ((mkName 1000 :: cexN2.reverse) ++ cexN1.reverse).Nodup := by
    rw [List.nodup_append, List.nodup_cons, List.mem_reverse]
    refine ⟨⟨hfN2, List.nodup_reverse.mpr hN2⟩, List.nodup_reverse.mpr hN1, ?_⟩
    intro x hx hx'
    rw [List.mem_reverse] at hx'
    rcases List.mem_cons.mp hx with rfl | hx
    · exact hfN1 hx'
    · exact hdisj hx' (List.mem_reverse.mp hx)
  have eC : emittedFlat LRU_CACHE_SIZE
      ((mkName 1000 :: cexN2.reverse) ++ cexN1.reverse) cexN1 = [] :=
    emittedFlat_refresh _ cexN1 _ hmemC
  have cC : cacheAfter LRU_CACHE_SIZE
      ((mkName 1000 :: cexN2.reverse) ++ cexN1.reverse) cexN1
        = cexN1.reverse ++ (mkName 1000 :: cexN2.reverse) := by
    rw [cacheAfter_refresh _ cexN1 _ hN1 hcndB hmemC, List.filter_append]
    have h1 : (mkName 1000 :: cexN2.reverse).filter (fun x => decide (x ∉ cexN1))
        = mkName 1000 :: cexN2.reverse := by
      refine List.filter_eq_self.mpr fun a ha => ?_
      rcases List.mem_cons.mp ha with rfl | ha
      · simpa using hfN1
      · simpa using fun hc => hdisj hc (List.mem_reverse.mp ha)
    have h2 : cexN1.reverse.filter (fun x => decide (x ∉ cexN1)) = [] :=
      List.filter_eq_nil_iff.mpr fun a ha => by simp [List.mem_reverse.mp ha]
    rw [h1, h2, List.append_nil]
  -- batch 4: all suppressed duplicates
  have hmemD : ∀ x ∈ cexN2, x ∈ cexN1.reverse ++ (mkName 1000 :: cexN2.reverse) :=
    fun x hx => List.mem_append.mpr
      (Or.inr (List.mem_cons_of_mem _ (List.mem_reverse.mpr hx)))
  have hcndC : (cexN1.reverse ++ (mkName 1000 :: cexN2.reverse)).Nodup := by
    rw [List.nodup_append, List.nodup_cons, List.mem_reverse]
    refine ⟨List.nodup_reverse.mpr hN1, ⟨hfN2, List.nodup_reverse.mpr hN2⟩, ?_⟩
    intro x hx hx'
    rw [List.mem_reverse] at hx
    rcases List.mem_cons.mp hx' with rfl | hx'
    · exact hfN1 hx
    · exact hdisj hx (List.mem_reverse.mp hx')
  have eD : emittedFlat LRU_CACHE_SIZE
      (cexN1.reverse ++ (mkName 1000 :: cexN2.reverse)) cexN2 = [] :=
    emittedFlat_refresh _ cexN2 _ hmemD
  have cD : cacheAfter LRU_CACHE_SIZE
      (cexN1.reverse ++ (mkName 1000 :: cexN2.reverse)) cexN2
        = cexN2.reverse ++ (cexN1.reverse ++ [mkName 1000]) := by
    rw [cacheAfter_refresh _ cexN2 _ hN2 hcndC hmemD, List.filter_append]
    have h1 : cexN1.reverse.filter (fun x => decide (x ∉ cexN2)) = cexN1.reverse :=
      List.filter_eq_self.mpr fun a ha => by
        simpa using fun hc => hdisj (List.mem_reverse.mp ha) hc
    have h2 : (mkName 1000 :: cexN2.reverse).filter (fun x => decide (x ∉ cexN2))
        = [mkName 1000] := by
      rw [List.filter_cons_of_pos (by simpa using hfN2)]
      rw [List.filter_eq_nil_iff.mpr fun a ha => by simp [List.mem_reverse.mp ha]]
    rw [h1, h2]
  -- batch 5: one fresh item evicts `mkName 1000`, which is then fresh again
  have hgD : mkName 999 ∉ cexN2.reverse ++ (cexN1.reverse ++ [mkName 1000]) := by
    rw [List.mem_append, List.mem_append, List.mem_reverse, List.mem_reverse,
      List.mem_singleton]
    rintro (h | h | h)
    · exact hgN2 h
    · exact hgN1 h
    · exact cex_g_ne_f h
  have htouchg : lruTouch LRU_CACHE_SIZE
      (cexN2.reverse ++ (cexN1.reverse ++ [mkName 1000])) (mkName 999)
        = mkName 999 :: (cexN2.reverse ++ cexN1.reverse) := by
    rw [lruTouch, if_neg hgD, show LRU_CACHE_SIZE = 199 + 1 from rfl,
      List.take_succ_cons, ← List.append_assoc,
      show (199 : Nat) = (cexN2.reverse ++ cexN1.reverse).length from
        (by simp [cexN1_length, cexN2_length]),
      List.take_left]
  have hfE : mkName 1000 ∉ mkName 999 :: (cexN2.reverse ++ cexN1.reverse) := by
    rw [List.mem_cons, List.mem_append, List.mem_reverse, List.mem_reverse]
    rintro (h | h | h)
    · exact cex_g_ne_f h.symm
    · exact hfN2 h
    · exact hfN1 h
  have eE : emittedFlat LRU_CACHE_SIZE
      (cexN2.reverse ++ (cexN1.reverse ++ [mkName 1000])) [mkName 999, mkName 1000]
        = [mkName 999, mkName 1000] := by
    rw [emittedFlat, if_neg hgD, htouchg, emittedFlat, if_neg hfE]
    rfl
  -- put the five batches together
  rw [emittedFlat_append, eA, cA, emittedFlat_append, eB, cB, emittedFlat_append,
    eC, cC, emittedFlat_append, eD, cD, eE]
  simp [cexP1, List.append_assoc]

/-- Counterexample to C3 as stated: on the batches `cexBatches` the stream
emits the fullname `mkName 1000` twice within a window of three consecutive
emissions containing only 2 ≤ 200 distinct fullnames — the claimed bound of
no re-emission within 200 consecutively emitted distinct fullnames is
false. -/
theorem C3_counterexample :
    ((cexRun.1.map (·.name)).drop 199).take 3
        = [mkName 1000, mkName 999, mkName 1000] ∧
      (((cexRun.1.map (·.name)).drop 199).take 3).count (mkName 1000) = 2 ∧
      (((cexRun.1.map (·.name)).drop 199).take 3).dedup.length ≤ LRU_CACHE_SIZE := by
  have hwin : ((cexRun.1.map (·.name)).drop 199).take 3
      = [mkName 1000, mkName 999, mkName 1000] := by
    rw [cexRun_names, show (199 : Nat) = cexP1.length from cexP1_length.symm,
      List.drop_left]
    rfl
  refine ⟨hwin, ?_, ?_⟩
  · rw [hwin]
    decide
  · rw [hwin]
    decide
